import Mathlib

/-!
# The layer manager and the tar archiver of `box`

A shallow embedding of `layer/layer.go`, `layer/filesystem.go` and `tar/tar.go`.

Go strings are lists of characters.  The lexical path functions of Go's
`path/filepath` (Unix flavour) that the code calls are written out below.  The
operating system is outside the program: its answers are parameters of the
embedded functions.
-/

namespace Box

/-- A Go string. -/
abbrev Str := List Char

/-- A byte sequence (file contents). -/
abbrev Bytes := List Nat

/-- Error values the program returns or passes on. -/
inductive Err where
  | ErrNotMounted
  | errIgnore
  | errorf (msg : String)
  | sys (code : Nat)
deriving DecidableEq, Repr

/-- The outcome of a Go call: a value, an error value, or a run-time panic. -/
inductive Outcome (α : Type) where
  | ok (a : α)
  | error (e : Err)
  | panicked
deriving DecidableEq, Repr

/-! ## strings / path/filepath -/

/-- Go `strings.HasPrefix`. -/
def HasPrefix (s pre : Str) : Bool := pre.isPrefixOf s

/-- Go `strings.HasSuffix`. -/
def HasSuffix (s suf : Str) : Bool := suf.reverse.isPrefixOf s.reverse

/-- Go `strings.Split` for a one-character separator. -/
def splitOn (sep : Char) : Str → List Str
  | [] => [[]]
  | c :: cs =>
    if c = sep then [] :: splitOn sep cs
    else match splitOn sep cs with
      | [] => [[c]]
      | w :: ws => (c :: w) :: ws

/-- Go `strings.Join` for a one-character separator. -/
def joinSep (sep : Char) : List Str → Str
  | [] => []
  | [w] => w
  | w :: ws => w ++ sep :: joinSep sep ws

/-- One path element processed by `filepath.Clean`; `out` is the stack of kept
elements, last one first. -/
def cleanStep (rooted : Bool) (out : List Str) (c : Str) : List Str :=
  if c = [] ∨ c = ['.'] then out
  else if c = ['.', '.'] then
    match out with
    | [] => if rooted then [] else [c]
    | top :: rest => if top = ['.', '.'] then c :: out else rest
  else c :: out

/-- Go `filepath.Clean` on Unix. -/
def Clean (p : Str) : Str :=
  if p = [] then ['.']
  else
    let rooted := p.head? = some '/'
    let body := joinSep '/' ((splitOn '/' p).foldl (cleanStep rooted) []).reverse
    if rooted then '/' :: body else if body = [] then ['.'] else body

/-- Go `filepath.Join` of two elements. -/
def Join (a b : Str) : Str :=
  if a ≠ [] then Clean (a ++ '/' :: b)
  else if b ≠ [] then Clean b
  else []

/-- Go `filepath.IsAbs` on Unix. -/
def IsAbs (p : Str) : Bool := HasPrefix p ['/']

/-- Go `filepath.SplitList` on Unix: splits a `PATH`-style list on `:`. -/
def SplitList (p : Str) : List Str :=
  if p = [] then [] else splitOn ':' p

/-- The elements of a cleaned path as the loop of `filepath.Rel` meets them:
a rooted path starts with an empty element, and `/` alone is that one element. -/
def relElems (p : Str) : List Str :=
  if p = [] then [] else if p = ['/'] then [[]] else splitOn '/' p

/-- The loop of `filepath.Rel`: drops the common leading elements.  The flag
tells whether the loop stopped at two differing elements. -/
def relLoop : List Str → List Str → Bool × List Str × List Str
  | b :: bs, t :: ts => if b = t then relLoop bs ts else (true, b :: bs, t :: ts)
  | bs, ts => (false, bs, ts)

/-- The end of `filepath.Rel`, after its loop: `bs` and `ts` are the elements
of the base and of the target that are left. -/
def relFinish (differ : Bool) (bs ts : List Str) : Except Err Str :=
  if differ ∧ bs.head? = some ['.', '.'] then
    .error (.errorf "Rel: can't make path relative")
  else if bs ≠ [] then
    let ups := joinSep '/' (bs.map fun _ => ['.', '.'])
    .ok (if ts ≠ [] then ups ++ '/' :: joinSep '/' ts else ups)
  else .ok (joinSep '/' ts)

/-- Go `filepath.Rel` on Unix. -/
def Rel (basepath targpath : Str) : Except Err Str :=
  let base := Clean basepath
  let targ := Clean targpath
  if targ = base then .ok ['.']
  else
    let base := if base = ['.'] then [] else base
    if (base.head? = some '/') ≠ (targ.head? = some '/') then
      .error (.errorf "Rel: can't make path relative")
    else
      let r := relLoop (relElems base) (relElems targ)
      relFinish r.1 r.2.1 r.2.2

/-- Drops the trailing slashes of a path. -/
def stripTrailingSlashes (p : Str) : Str := (p.reverse.dropWhile (· = '/')).reverse

/-- Go `filepath.Base` on Unix. -/
def Base (p : Str) : Str :=
  if p = [] then ['.']
  else
    let q := stripTrailingSlashes p
    let last := (splitOn '/' q).getLast?.getD []
    if last = [] then ['/'] else last

/-- Go `filepath.Dir` on Unix: the cleaned text up to the last separator. -/
def Dir (p : Str) : Str :=
  Clean ((p.reverse.dropWhile (· ≠ '/')).reverse)

/-- Go `filepath.Abs` on Unix; `getwd` is the answer of `os.Getwd`. -/
def Abs (getwd : Except Err Str) (p : Str) : Except Err Str :=
  if IsAbs p then .ok (Clean p)
  else match getwd with
    | .error e => .error e
    | .ok wd => .ok (Join wd p)

/-! ## layer/layer.go -/

/-- The constant `dirMode` (octal 0777) of layer.go. -/
def dirMode : Nat := 511

/-- The struct `Layer`. -/
structure Layer where
  dirname : Str
  workingDir : Str
deriving DecidableEq, Repr

/-- The function `New` of layer.go. -/
def New (getwd : Except Err Str) (dirname workingDir : Str) : Except Err Layer :=
  if dirname = [] then .error (.errorf "Dirname may not be empty")
  else
    let wd : Except Err Str := if workingDir = [] then getwd else .ok workingDir
    match wd with
    | .error e => .error e
    | .ok workingDir =>
      if IsAbs dirname then .error (.errorf "Cannot use absolute path for dirname")
      else if (SplitList dirname).any (· = ['.', '.']) then
        .error (.errorf "Cannot use .. in path names")
      else
        match Abs getwd workingDir with
        | .error e => .error e
        | .ok workingDir => .ok { dirname := dirname, workingDir := workingDir }

/-- The method `Layer.Path`. -/
def Layer.Path (l : Layer) : Str := Join l.workingDir l.dirname

/-! ## layer/filesystem.go -/

/-- A call the program makes to the operating system. -/
inductive Call where
  | stat (path : Str)
  | mkdir (path : Str) (mode : Nat)
  | mount (source target fstype : Str) (flags : Nat) (data : Str)
  | unmount (target : Str) (flags : Nat)
  | removeAll (path : Str)
deriving DecidableEq, Repr

/-- The operating system as the program sees it: its answer to a call, given
the calls made before it (`none` is success). -/
abbrev OS := List Call → Call → Option Err

/-- The struct `Filesystem`. -/
structure Filesystem where
  Layers : List Layer
  Mountpoint : Str
  workDir : Str
  mounted : Bool
deriving DecidableEq, Repr

/-- The method `Filesystem.Mounted`. -/
def Filesystem.Mounted (f : Filesystem) : Bool := f.mounted

/-- The first loop of `Filesystem.Mount`: every layer that `Exists` reports
missing is made with `Create`; the first failure stops the loop. -/
def createMissing (os : OS) : List Layer → List Call → Option Err × List Call
  | [], tr => (none, tr)
  | l :: ls, tr =>
    let st := Call.stat l.Path
    if (os tr st).isNone then createMissing os ls (tr ++ [st])
    else
      let mk := Call.mkdir l.Path dirMode
      match os (tr ++ [st]) mk with
      | some e => (some e, tr ++ [st, mk])
      | none => createMissing os ls (tr ++ [st, mk])

/-- The option string handed to the mount call. -/
def mountData (lower : List Layer) (upper : Layer) (work : Str) : Str :=
  "lowerdir=".toList ++ joinSep ':' (lower.map Layer.Path) ++ ",upperdir=".toList
    ++ upper.Path ++ ",workdir=".toList ++ work

/-- The method `Filesystem.Mount`.  `tr` is the list of system calls made so
far; the result carries the receiver and the call list afterwards.  With no
layers the slice expression `f.Layers[:len(f.Layers)-1]` panics. -/
def Filesystem.Mount (os : OS) (f : Filesystem) (work : Str) (tr : List Call) :
    Outcome Unit × Filesystem × List Call :=
  match createMissing os f.Layers tr with
  | (some e, tr1) => (.error e, f, tr1)
  | (none, tr1) =>
    if f.Layers.length = 1 then
      (.error (.errorf "Minimum 2 layers for mountpoint: got 1"), f, tr1)
    else
      match f.Layers.getLast? with
      | none => (.panicked, f, tr1)
      | some upper =>
        let lower := f.Layers.dropLast
        if work = [] then
          (.error (.errorf "In mount of mountpoint: workdir cannot be empty"), f, tr1)
        else
          let f1 := { f with workDir := work }
          let mk := Call.mkdir work 448
          match os tr1 mk with
          | some e => (.error e, f1, tr1 ++ [mk])
          | none =>
            let mnt := Call.mount "overlay".toList f.Mountpoint "overlay".toList 0
              (mountData lower upper work)
            match os (tr1 ++ [mk]) mnt with
            | some e => (.error e, f1, tr1 ++ [mk, mnt])
            | none => (.ok (), { f1 with mounted := true }, tr1 ++ [mk, mnt])

/-- The method `Filesystem.Unmount`. -/
def Filesystem.Unmount (os : OS) (f : Filesystem) (tr : List Call) :
    Outcome Unit × Filesystem × List Call :=
  if !f.mounted then (.error .ErrNotMounted, f, tr)
  else
    let um := Call.unmount f.Mountpoint 0
    match os tr um with
    | some e => (.error e, f, tr ++ [um])
    | none =>
      let rm := Call.removeAll f.workDir
      match os (tr ++ [um]) rm with
      | some _ => (.error (.errorf "Could not remove work dir"), f, tr ++ [um, rm])
      | none => (.ok (), { f with mounted := false }, tr ++ [um, rm])

/-- What a caller can do with a `Filesystem`: call its two methods or assign
its exported fields. -/
inductive Op where
  | mount (work : Str)
  | unmount
  | setLayers (ls : List Layer)
  | setMountpoint (p : Str)
deriving DecidableEq, Repr

/-- One caller action on the filesystem and the call list (a panic is taken as
recovered by the caller, the receiver being unchanged). -/
def stepOp (os : OS) (s : Filesystem × List Call) : Op → Filesystem × List Call
  | .mount work => (Filesystem.Mount os s.1 work s.2).2
  | .unmount => (Filesystem.Unmount os s.1 s.2).2
  | .setLayers ls => ({ s.1 with Layers := ls }, s.2)
  | .setMountpoint p => ({ s.1 with Mountpoint := p }, s.2)

/-- A sequence of caller actions. -/
def runOps (os : OS) (s : Filesystem × List Call) (ops : List Op) : Filesystem × List Call :=
  ops.foldl (stepOp os) s

/-- The call is a mount call. -/
def Call.isMount : Call → Bool
  | .mount _ _ _ _ _ => true
  | _ => false

/-- The call is an unmount call or a recursive removal. -/
def Call.isTeardown : Call → Bool
  | .unmount _ _ => true
  | .removeAll _ => true
  | _ => false

/-- Some mount call in the call list was answered with success. -/
def mountSucceeded (os : OS) (tr : List Call) : Prop :=
  ∃ pre c post, tr = pre ++ c :: post ∧ c.isMount = true ∧ os pre c = none

/-- An operating system on which every call succeeds. -/
def osAllOk : OS := fun _ _ => none

/-- An operating system on which only the recursive removal fails. -/
def osRemoveFails : OS := fun _ c =>
  match c with
  | .removeAll _ => some (.sys 13)
  | _ => none

/-- Two layers below `/tmp/box`. -/
def twoLayers : List Layer :=
  [{ dirname := "foo".toList, workingDir := "/tmp/box".toList },
   { dirname := "bar".toList, workingDir := "/tmp/box".toList }]

/-- An unmounted filesystem over `twoLayers`. -/
def fsTwo : Filesystem :=
  { Layers := twoLayers, Mountpoint := "/tmp/box/quux".toList, workDir := [], mounted := false }

/-! ## archive/tar headers -/

/-- The type flags of a tar header that the program meets. -/
inductive Typeflag where
  | TypeReg
  | TypeDir
  | TypeSymlink
  | TypeFifo
  | TypeChar
  | TypeBlock
deriving DecidableEq, Repr

/-- The fields of `tar.Header` that the program reads or writes. -/
structure Header where
  Typeflag : Typeflag
  Name : Str
  Linkname : Str
  Size : Nat
  Mode : Nat
  Uid : Nat
  Gid : Nat
deriving DecidableEq, Repr

/-- One entry of a tar stream: a header and the bytes that follow it. -/
structure Entry where
  header : Header
  data : Bytes
deriving DecidableEq, Repr

/-- The call `header.FileInfo().IsDir()`. -/
def Header.IsDir (h : Header) : Bool := h.Typeflag = .TypeDir

/-! ## The destination file system of `Unarchive` -/

/-- A node of the destination file system: a directory or a regular file
(ownership and permission bits are not tracked). -/
inductive DNode where
  | dir
  | file (content : Bytes)
deriving DecidableEq, Repr

/-- The destination file system: the nodes at their cleaned paths. -/
abbrev DestFS := List (Str × DNode)

/-- Directories that exist without being listed: the root, the current
directory and the directories above it. -/
def implicitDir (p : Str) : Bool :=
  p = ['/'] || (splitOn '/' p).all fun c => c = ['.'] || c = ['.', '.']

/-- The node at a path (`os.Stat`). -/
def statFS (fs : DestFS) (p : Str) : Option DNode :=
  if implicitDir p then some .dir else fs.lookup p

/-- Sets the node at a path. -/
def setNode (fs : DestFS) (p : Str) (n : DNode) : DestFS :=
  (p, n) :: fs.filter fun q => q.1 ≠ p

/-- Go `os.MkdirAll` at a cleaned path; the fuel bounds the number of parents. -/
def mkdirAllFuel : Nat → DestFS → Str → Except Err DestFS
  | 0, _, _ => .error (.sys 36)
  | n + 1, fs, p =>
    match statFS fs p with
    | some .dir => .ok fs
    | some (.file _) => .error (.sys 20)
    | none =>
      match mkdirAllFuel n fs (Dir p) with
      | .error e => .error e
      | .ok fs1 => .ok (setNode fs1 p .dir)

/-- Go `os.MkdirAll`. -/
def MkdirAll (fs : DestFS) (p : Str) : Except Err DestFS := mkdirAllFuel (p.length + 1) fs p

/-- The calls `os.OpenFile(p, os.O_CREATE|os.O_WRONLY, mode)` and `io.Copy(f, tr)`:
an existing regular file is opened as it is and written from offset 0, a
missing one is created in an existing directory. -/
def openWrite (fs : DestFS) (p : Str) (data : Bytes) : Except Err DestFS :=
  match statFS fs p with
  | some .dir => .error (.sys 21)
  | some (.file old) => .ok (setNode fs p (.file (data ++ old.drop data.length)))
  | none =>
    if statFS fs (Dir p) = some .dir then .ok (setNode fs p (.file data))
    else .error (.sys 2)

/-- A tar file as `tar.Reader` delivers it: the entries, then `io.EOF`
(`none`) or a read error. -/
structure TarStream where
  entries : List Entry
  ending : Option Err
deriving DecidableEq, Repr

/-- The loop of `Unarchive` over the entries of the archive; `path` is the
cleaned destination and `chown` the answer of `os.Chown`. -/
def unarchiveLoop (chown : Str → Nat → Nat → Option Err) (path : Str) :
    List Entry → Option Err → DestFS → Option Err × DestFS
  | [], ending, fs => (ending, fs)
  | e :: es, ending, fs =>
    let name := if HasPrefix e.header.Name ['/'] then e.header.Name.drop 1 else e.header.Name
    match Rel path (Clean (Join path name)) with
    | .error err => (some err, fs)
    | .ok rel =>
      let rel := Join path rel
      if path = rel then unarchiveLoop chown path es ending fs
      else if HasPrefix rel ['.', '.'] then
        (some (.errorf "Path lies underneath temporary directory"), fs)
      else
        match (if e.header.IsDir then MkdirAll fs rel else openWrite fs rel e.data) with
        | .error err => (some err, fs)
        | .ok fs1 =>
          match chown rel e.header.Uid e.header.Gid with
          | some err => (some err, fs1)
          | none => unarchiveLoop chown path es ending fs1

/-- The function `Unarchive` of tar.go: the error it returns (`none` is nil)
and the file system afterwards.  `tarFile` is the answer of `os.Open`. -/
def Unarchive (chown : Str → Nat → Nat → Option Err) (fs : DestFS) (path : Str)
    (tarFile : Except Err TarStream) : Option Err × DestFS :=
  match tarFile with
  | .error e => (some e, fs)
  | .ok tf => unarchiveLoop chown (Clean path) tf.entries tf.ending fs

/-! ## The source side of `Archive` -/

/-- The kinds of file that `os.FileInfo` tells apart. -/
inductive FileKind where
  | regular
  | dir
  | symlink
  | fifo
  | charDevice
  | blockDevice
  | socket
deriving DecidableEq, Repr

/-- The part of `os.FileInfo` that the program uses. -/
structure FileInfo where
  name : Str
  kind : FileKind
  size : Nat
  mode : Nat
  uid : Nat
  gid : Nat
deriving DecidableEq, Repr

/-- The call `fi.IsDir()`. -/
def FileInfo.IsDir (fi : FileInfo) : Bool := fi.kind = .dir

/-- Go `tar.FileInfoHeader`. -/
def FileInfoHeader (fi : FileInfo) (link : Str) : Except Err Header :=
  let h : Header := { Typeflag := .TypeReg, Name := fi.name, Linkname := [], Size := 0,
                      Mode := fi.mode, Uid := fi.uid, Gid := fi.gid }
  match fi.kind with
  | .regular => .ok { h with Typeflag := .TypeReg, Size := fi.size }
  | .dir => .ok { h with Typeflag := .TypeDir, Name := fi.name ++ ['/'] }
  | .symlink => .ok { h with Typeflag := .TypeSymlink, Linkname := link }
  | .fifo => .ok { h with Typeflag := .TypeFifo }
  | .charDevice => .ok { h with Typeflag := .TypeChar }
  | .blockDevice => .ok { h with Typeflag := .TypeBlock }
  | .socket => .error (.errorf "archive/tar: sockets not supported")

/-- One call of the callback by `filepath.Walk`: the path and either the
file information or the error met on the way to it. -/
structure WalkItem where
  path : Str
  info : Except Err FileInfo

/-- The struct `lstatInfo`. -/
structure lstatInfo where
  filename : Str
  fi : FileInfo
deriving DecidableEq, Repr

/-- The operating system and the libraries as `Archive` sees them. -/
structure World where
  /-- Answer of `os.Getwd`. -/
  getwd : Except Err Str
  /-- Answer of `filepath.Glob`. -/
  glob : Str → Except Err (List Str)
  /-- Answer of `filepath.EvalSymlinks`. -/
  evalSymlinks : Str → Except Err Str
  /-- Answer of `os.Lstat`. -/
  lstat : Str → Except Err FileInfo
  /-- The calls `filepath.Walk` makes to its callback for a root, in order. -/
  walk : Str → List WalkItem
  /-- Opening a file and copying it into the tar writer: the bytes copied or
  the first error. -/
  readFile : Str → Except Err Bytes
  /-- Answer of `tw.WriteHeader`, given the entries written before. -/
  writeHeader : List Entry → Header → Option Err
  /-- Answer of `ioutil.TempFile`: the name of the new file. -/
  tempFile : Except Err Str
  /-- Hex form of the SHA-256 digest of a tar stream. -/
  sha256hex : List Entry → Str

/-- The test inside the inner loop of `checkIgnore`. -/
def ignoredBy (entry path : Str) : Bool :=
  match Rel entry path with
  | .ok ok => !HasPrefix ok ['.', '.']
  | .error _ => false

/-- The function `checkIgnore` of tar.go (`none` is nil). -/
def checkIgnore (w : World) (rel path : Str) : List Str → Option Err
  | [] => none
  | ignore :: rest =>
    match w.glob (Join rel ignore) with
    | .error e => some e
    | .ok entries =>
      if entries.any fun entry => ignoredBy entry path then some .errIgnore
      else checkIgnore w rel path rest

/-- The function `writeTarFile` of tar.go, on the entries written so far. -/
def writeTarFile (w : World) (tw : List Entry) (header : Header) (realpath : Str) :
    Option Err × List Entry :=
  match w.writeHeader tw header with
  | some e => (some e, tw)
  | none =>
    if header.Typeflag = .TypeReg then
      match w.readFile realpath with
      | .error e => (some e, tw ++ [{ header := header, data := [] }])
      | .ok bytes => (none, tw ++ [{ header := header, data := bytes }])
    else (none, tw ++ [{ header := header, data := [] }])

/-- The callback that `archiveWalk` returns, on the entries written so far. -/
def archiveWalk (w : World) (rel target : Str) (ignoreList : List Str) (tw : List Entry)
    (item : WalkItem) : Option Err × List Entry :=
  match item.info with
  | .error e => (some e, tw)
  | .ok fi =>
    match Abs w.getwd item.path with
    | .error e => (some e, tw)
    | .ok path =>
      match Rel rel path with
      | .error e => (some e, tw)
      | .ok relpath =>
        match checkIgnore w rel path ignoreList with
        | some e => if e = .errIgnore then (none, tw) else (some e, tw)
        | none =>
          match FileInfoHeader fi (Join target relpath) with
          | .error e => (some e, tw)
          | .ok header =>
            if !(header.Typeflag = .TypeReg || header.Typeflag = .TypeSymlink) then (none, tw)
            else
              match w.evalSymlinks path with
              | .error _ => (some (.errorf "evaluating (probably dangling) symlink"), tw)
              | .ok realpath =>
                match Rel rel realpath with
                | .error e => (some e, tw)
                | .ok realrel =>
                  if HasPrefix realrel ['.', '.'] then
                    (some (.errorf "path falls below the box working directory"), tw)
                  else
                    writeTarFile w tw { header with Name := Join target realrel } realpath

/-- Go `filepath.Walk` with the callback of `archiveWalk`, which never asks
to skip a directory: the calls are made in order until one returns an error. -/
def walkAll (w : World) (rel target : Str) (ignoreList : List Str) :
    List WalkItem → List Entry → Option Err × List Entry
  | [], tw => (none, tw)
  | item :: rest, tw =>
    match archiveWalk w rel target ignoreList tw item with
    | (some e, tw1) => (some e, tw1)
    | (none, tw1) => walkAll w rel target ignoreList rest tw1

/-- The function `archiveSingle` of tar.go. -/
def archiveSingle (w : World) (rel target : Str) (tw : List Entry) : Option Err × List Entry :=
  match w.lstat rel with
  | .error e => (some e, tw)
  | .ok fi =>
    let target := if HasSuffix target ['/'] then Join target (Base rel) else target
    match FileInfoHeader fi target with
    | .error e => (some e, tw)
    | .ok header =>
      let header := { header with Name := target }
      match w.writeHeader tw header with
      | some e => (some e, tw)
      | none =>
        match w.readFile rel with
        | .error e => (some e, tw ++ [{ header := header, data := [] }])
        | .ok bytes => (none, tw ++ [{ header := header, data := bytes }])

/-- The function `processEntries` of tar.go. -/
def processEntries (w : World) : List Str → Except Err (List lstatInfo)
  | [] => .ok []
  | entry :: rest =>
    match w.evalSymlinks entry with
    | .error e => .error e
    | .ok evaled =>
      match Abs w.getwd evaled with
      | .error e => .error e
      | .ok evaled =>
        match w.lstat evaled with
        | .error e => .error e
        | .ok fi =>
          match processEntries w rest with
          | .error e => .error e
          | .ok more => .ok ({ filename := evaled, fi := fi } :: more)

/-- The main loop of `Archive`.  `ctx k` is the answer of the `k`-th call of
`checkContext`; `target` is carried from one entry to the next. -/
def archiveLoop (w : World) (ctx : Nat → Option Err) (ignoreList : List Str) :
    List lstatInfo → Nat → Str → List Entry → Option Err × List Entry
  | [], _, _, tw => (none, tw)
  | li :: rest, k, target, tw =>
    match ctx k with
    | some e => (some e, tw)
    | none =>
      if li.fi.IsDir then
        match FileInfoHeader li.fi li.filename with
        | .error e => (some e, tw)
        | .ok header =>
          let target := if target = ['.'] then li.filename else target
          let header := { header with Linkname := target, Name := target }
          match w.writeHeader tw header with
          | some e => (some e, tw)
          | none =>
            match walkAll w li.filename target ignoreList (w.walk li.filename)
                (tw ++ [{ header := header, data := [] }]) with
            | (some e, tw1) => (some e, tw1)
            | (none, tw1) => archiveLoop w ctx ignoreList rest (k + 1) target tw1
      else
        match checkIgnore w li.filename li.filename ignoreList with
        | none =>
          match archiveSingle w li.filename target tw with
          | (some e, tw1) => (some e, tw1)
          | (none, tw1) => archiveLoop w ctx ignoreList rest (k + 1) target tw1
        | some e =>
          if e = .errIgnore then archiveLoop w ctx ignoreList rest (k + 1) target tw
          else (some e, tw)

/-- What `Archive` returns, and the entries it wrote to the tar stream. -/
structure ArchiveResult where
  file : Str
  digest : Str
  err : Option Err
  written : List Entry
deriving DecidableEq, Repr

/-- The function `Archive` of tar.go. -/
def Archive (w : World) (ctx : Nat → Option Err) (rel target : Str) (ignoreList : List Str) :
    ArchiveResult :=
  match ctx 0 with
  | some e => { file := [], digest := [], err := some e, written := [] }
  | none =>
    match w.glob rel with
    | .error e => { file := [], digest := [], err := some e, written := [] }
    | .ok entries =>
      match processEntries w entries with
      | .error e => { file := [], digest := [], err := some e, written := [] }
      | .ok lstatEntries =>
        match w.tempFile with
        | .error e => { file := [], digest := [], err := some e, written := [] }
        | .ok f =>
          match archiveLoop w ctx ignoreList lstatEntries 1 target [] with
          | (some e, tw) => { file := [], digest := [], err := some e, written := tw }
          | (none, tw) => { file := f, digest := w.sha256hex tw, err := none, written := tw }

/-! ## Cleaned absolute paths -/

/-- A path element that `filepath.Clean` keeps as it is: not empty, without a
separator, and neither `.` nor `..`. -/
def simpleName (c : Str) : Prop := c ≠ [] ∧ '/' ∉ c ∧ c ≠ ['.'] ∧ c ≠ ['.', '.']

instance : DecidablePred simpleName := fun c => by unfold simpleName; infer_instance

/-- A simple path element that does not begin with two dots. -/
def plainName (c : Str) : Prop := simpleName c ∧ HasPrefix c ['.', '.'] = false

instance : DecidablePred plainName := fun c => by unfold plainName; infer_instance

/-- The absolute path with the given elements. -/
def absPath (cs : List Str) : Str := '/' :: joinSep '/' cs

/-- The non-empty elements of a path. -/
def pathElems (p : Str) : List Str := (splitOn '/' p).filter fun c => c ≠ []

/-- The path `e` is the path `p` itself or a directory on the way to it. -/
def onPathTo (e p : Str) : Bool := (pathElems e).isPrefixOf (pathElems p)

/-- A cleaned absolute path. -/
def cleanAbs (p : Str) : Prop := ∃ cs : List Str, (∀ c ∈ cs, simpleName c) ∧ p = absPath cs

/-- Some pattern of the ignore list, expanded below `rel`, yields `path` itself
or a directory on the way to it. -/
def globHits (w : World) (rel path : Str) (ignoreList : List Str) : Prop :=
  ∃ ign ∈ ignoreList, ∃ es, w.glob (Join rel ign) = .ok es ∧ ∃ e ∈ es, onPathTo e path = true

/-! ## A flat source directory -/

/-- A file of a flat directory: a regular file, or a symbolic link to a name
in the same directory. -/
inductive SrcNode where
  | regular (content : Bytes)
  | link (target : Str)
deriving DecidableEq, Repr

/-- Matching of one path element against a pattern of literal characters,
`*` and `?` (the part of `filepath.Match` without classes and escapes). -/
def globMatch : Str → Str → Bool
  | [], n => n = []
  | c :: ps, n =>
    if c = '*' then n.tails.any (globMatch ps)
    else match n with
      | [] => false
      | d :: ns => (c = '?' || c = d) && globMatch ps ns

/-- The file information of a file of a flat directory. -/
def flatInfo (name : Str) : SrcNode → FileInfo
  | .regular c => { name := name, kind := .regular, size := c.length, mode := 420, uid := 0, gid := 0 }
  | .link _ => { name := name, kind := .symlink, size := 0, mode := 511, uid := 0, gid := 0 }

/-- The file information of the directory itself. -/
def flatDirInfo (root : Str) : FileInfo :=
  { name := Base root, kind := .dir, size := 0, mode := 493, uid := 0, gid := 0 }

/-- The file of a flat directory at a path. -/
def flatFind (root : Str) (files : List (Str × SrcNode)) (p : Str) : Option (Str × SrcNode) :=
  files.find? fun f => Join root f.1 = p

/-- The world of a directory `root` (absolute, cleaned, without symbolic
links on the way to it) that holds the files `files`, listed in the order in
which the directory is read, and no sub-directory.  Every call succeeds where
the file system allows it; patterns are matched with `globMatch`. -/
def flatWorld (root : Str) (files : List (Str × SrcNode)) (sha : List Entry → Str) : World where
  getwd := .ok root
  glob := fun p =>
    if p = root then .ok [root]
    else if HasPrefix p (root ++ ['/']) then
      .ok ((files.filter fun f => globMatch (p.drop (root.length + 1)) f.1).map
        fun f => Join root f.1)
    else .ok []
  evalSymlinks := fun p =>
    if p = root then .ok root
    else match flatFind root files p with
      | some (_, .regular _) => .ok p
      | some (_, .link t) =>
        match files.lookup t with
        | some (.regular _) => .ok (Join root t)
        | _ => .error (.sys 2)
      | none => .error (.sys 2)
  lstat := fun p =>
    if p = root then .ok (flatDirInfo root)
    else match flatFind root files p with
      | some (name, node) => .ok (flatInfo name node)
      | none => .error (.sys 2)
  walk := fun r =>
    if r = root then
      { path := root, info := .ok (flatDirInfo root) } ::
        files.map fun f => { path := Join root f.1, info := .ok (flatInfo f.1 f.2) }
    else [{ path := r, info := .error (.sys 2) }]
  readFile := fun p =>
    match flatFind root files p with
    | some (_, .regular c) => .ok c
    | _ => .error (.sys 2)
  writeHeader := fun _ _ => none
  tempFile := .ok "/tmp/box-copy.1".toList
  sha256hex := sha

/-- The tar stream that `tar.Reader` reads back from the entries written. -/
def tarOf (r : ArchiveResult) : Except Err TarStream :=
  .ok { entries := r.written, ending := none }

/-- A destination in which only the directory `path` and those above it exist. -/
def freshDest (path : Str) : DestFS := [(path, .dir)]

/-- The entry that the walk of a flat directory writes for one of its files:
a regular file gives its header and bytes under its own name, a link gives a
link header under the name of its target. -/
def flatEntry : Str × SrcNode → Entry
  | (n, .regular c) =>
    { header := { Typeflag := .TypeReg, Name := absPath [n], Linkname := [], Size := c.length,
                  Mode := 420, Uid := 0, Gid := 0 },
      data := c }
  | (n, .link t) =>
    { header := { Typeflag := .TypeSymlink, Name := absPath [t], Linkname := absPath [n],
                  Size := 0, Mode := 511, Uid := 0, Gid := 0 },
      data := [] }

/-- The entry written for the archived directory itself under the target `/`. -/
def flatRootEntry : Entry :=
  { header := { Typeflag := .TypeDir, Name := ['/'], Linkname := ['/'], Size := 0, Mode := 493,
                Uid := 0, Gid := 0 },
    data := [] }

/-- What the destination `absPath dcs` holds while the archive of a flat
directory is unpacked into it: the destination directory itself and, under
the names of regular files of the source only, nothing yet, an empty file or
the bytes of that file. -/
def destInv (dcs : List Str) (files : List (Str × SrcNode)) (fs : DestFS) : Prop :=
  fs.lookup (absPath dcs) = some .dir ∧
  (∀ p, fs.lookup p ≠ none →
    p = absPath dcs ∨ ∃ n c, (n, SrcNode.regular c) ∈ files ∧ p = absPath (dcs ++ [n])) ∧
  (∀ n c, (n, SrcNode.regular c) ∈ files →
    fs.lookup (absPath (dcs ++ [n])) = none ∨
    fs.lookup (absPath (dcs ++ [n])) = some (.file []) ∨
    fs.lookup (absPath (dcs ++ [n])) = some (.file c))

/-! ## Examples -/

/-- A context that is never cancelled. -/
def ctxLive : Nat → Option Err := fun _ => none

/-- An `os.Chown` that always succeeds. -/
def chownOk : Str → Nat → Nat → Option Err := fun _ _ _ => none

/-- A digest function for the examples. -/
def shaConst : List Entry → Str := fun _ => "d".toList

/-- A header of a regular file. -/
def regHeader (name : Str) (size : Nat) : Header :=
  { Typeflag := .TypeReg, Name := name, Linkname := [], Size := size, Mode := 420, Uid := 0, Gid := 0 }

/-- The directories `/tmp` and `/tmp/dest`. -/
def destTmp : DestFS := [("/tmp".toList, .dir), ("/tmp/dest".toList, .dir)]

/-- An archive with the one entry `../x`. -/
def tarEscape : TarStream :=
  { entries := [{ header := regHeader "../x".toList 3, data := [1, 2, 3] }], ending := none }

/-- The directory `/tmp/dest` holding a file `f` of five bytes. -/
def destLong : DestFS :=
  [("/tmp".toList, .dir), ("/tmp/dest".toList, .dir), ("/tmp/dest/f".toList, .file [1, 2, 3, 4, 5])]

/-- An archive with the one entry `f` of two bytes. -/
def tarShort : TarStream :=
  { entries := [{ header := regHeader "f".toList 2, data := [9, 9] }], ending := none }

/-- The directory of `TestArchiveSpecialFile` without the fifo: a file and a
link to it. -/
def filesSym : List (Str × SrcNode) :=
  [("test".toList, .regular [7, 8]), ("testsym".toList, .link "test".toList)]

/-- The directory of `TestArchiveIgnore` with one file for each number. -/
def filesFoo : List (Str × SrcNode) :=
  [("bar1".toList, .regular [1]), ("foo1".toList, .regular [2]), ("foo2".toList, .regular [3])]


/-- The test of `archiveWalk` that makes it refuse a link: the item is a symbolic
link that is not ignored and whose real path, taken relative to `rel`, begins
with `..`. -/
def escapes (w : World) (rel : Str) (ignoreList : List Str) (item : WalkItem) : Prop :=
  ∃ fi path realpath realrel,
    item.info = .ok fi ∧ fi.kind = .symlink ∧ Abs w.getwd item.path = .ok path ∧
    checkIgnore w rel path ignoreList ≠ some .errIgnore ∧
    w.evalSymlinks path = .ok realpath ∧ Rel rel realpath = .ok realrel ∧
    HasPrefix realrel ['.', '.'] = true

/-- The directory `/src` with one link `evil` whose real path is `/etc/passwd`. -/
def escapeWorld : World :=
  { flatWorld "/src".toList [("evil".toList, .link "x".toList)] shaConst with
    evalSymlinks := fun p =>
      if p = "/src/evil".toList then .ok "/etc/passwd".toList
      else if p = "/src".toList then .ok "/src".toList else .error (.sys 2) }

/-- The file information of a directory or regular file of `nestedWorld`. -/
def plainInfo (name : Str) (kind : FileKind) (size : Nat) : FileInfo :=
  { name := name, kind := kind, size := size, mode := 420, uid := 0, gid := 0 }

/-- The world of the directory `/src` that holds the file `a`, the link `l`
to `a`, and the sub-directory `sub` with the file `f`. -/
def nestedWorld : World where
  getwd := .ok "/src".toList
  glob := fun p => .ok [p]
  evalSymlinks := fun p => if p = "/src/l".toList then .ok "/src/a".toList else .ok p
  lstat := fun p =>
    if p = "/src".toList then .ok (flatDirInfo "/src".toList) else .error (.sys 2)
  walk := fun _ =>
    [{ path := "/src".toList, info := .ok (flatDirInfo "/src".toList) },
     { path := "/src/a".toList, info := .ok (plainInfo "a".toList .regular 1) },
     { path := "/src/l".toList, info := .ok (plainInfo "l".toList .symlink 0) },
     { path := "/src/sub".toList, info := .ok (plainInfo "sub".toList .dir 0) },
     { path := "/src/sub/f".toList, info := .ok (plainInfo "f".toList .regular 1) }]
  readFile := fun p => if p = "/src/a".toList then .ok [1] else .ok [5]
  writeHeader := fun _ _ => none
  tempFile := .ok "/tmp/box-copy.2".toList
  sha256hex := shaConst

/-! ## The archive methods of a layer -/

/-- The method `Layer.Archive` of layer.go; `context.Background()` is never
cancelled. -/
def Layer.Archive (w : World) (l : Layer) : ArchiveResult :=
  Box.Archive w ctxLive l.dirname ['/'] []

/-- The method `Layer.Unarchive` of layer.go. -/
def Layer.Unarchive (chown : Str → Nat → Nat → Option Err) (fs : DestFS) (l : Layer)
    (tarFile : Except Err TarStream) : Option Err × DestFS :=
  Box.Unarchive chown fs l.dirname tarFile

/-- The layer `foo` below the working directory `/tmp/box`. -/
def layerFoo : Layer := { dirname := "foo".toList, workingDir := "/tmp/box".toList }

/-- The world of a process whose current directory is `/home`, where nothing
is named `foo`, while the directory `/tmp/box/foo` holds the file `a`. -/
def worldElsewhere : World :=
  { flatWorld "/tmp/box/foo".toList [("a".toList, .regular [4])] shaConst with
    getwd := .ok "/home".toList }

/-- The file system of that process: the layer directory `/tmp/box/foo` and
those above it; nothing is named `foo` in the current directory. -/
def destBox : DestFS :=
  [("/tmp".toList, .dir), ("/tmp/box".toList, .dir), ("/tmp/box/foo".toList, .dir)]

/-- An archive with the one entry `/a` of one byte. -/
def tarA : TarStream :=
  { entries := [{ header := regHeader "/a".toList 1, data := [4] }], ending := none }

/-! ## The mount flag -/

theorem mountSucceeded_append (os : OS) (tr ext : List Call) (h : mountSucceeded os tr) :
    mountSucceeded os (tr ++ ext) := by
  obtain ⟨pre, c, post, rfl, hc, ho⟩ := h
  exact ⟨pre, c, post ++ ext, by simp, hc, ho⟩

theorem createMissing_extends (os : OS) (ls : List Layer) (tr : List Call) :
    ∃ ext, (createMissing os ls tr).2 = tr ++ ext := by
  induction ls generalizing tr with
  | nil => exact ⟨[], by simp [createMissing]⟩
  | cons l ls ih =>
    simp only [createMissing]
    split
    · obtain ⟨ext, h⟩ := ih (tr ++ [Call.stat l.Path])
      exact ⟨Call.stat l.Path :: ext, by rw [h]; simp⟩
    · split
      · exact ⟨[Call.stat l.Path, Call.mkdir l.Path dirMode], rfl⟩
      · obtain ⟨ext, h⟩ := ih (tr ++ [Call.stat l.Path, Call.mkdir l.Path dirMode])
        exact ⟨Call.stat l.Path :: Call.mkdir l.Path dirMode :: ext, by rw [h]; simp⟩

theorem Mount_inv (os : OS) (f : Filesystem) (work : Str) (tr : List Call)
    (h : f.mounted = true → mountSucceeded os tr) :
    (Filesystem.Mount os f work tr).2.1.mounted = true →
      mountSucceeded os (Filesystem.Mount os f work tr).2.2 := by
  obtain ⟨ext, hext⟩ := createMissing_extends os f.Layers tr
  unfold Filesystem.Mount
  rcases hc : createMissing os f.Layers tr with ⟨r, tr1⟩
  rw [hc] at hext
  simp only at hext
  subst hext
  cases r with
  | some e => simpa using fun hm => mountSucceeded_append os tr ext (h hm)
  | none =>
    simp only
    split
    · simpa using fun hm => mountSucceeded_append os tr ext (h hm)
    · split
      · simpa using fun hm => mountSucceeded_append os tr ext (h hm)
      · split
        · simpa using fun hm => mountSucceeded_append os tr ext (h hm)
        · split
          · intro hm
            have := mountSucceeded_append os tr (ext ++ [Call.mkdir work 448]) (h hm)
            simpa using this
          · split
            · intro hm
              have := mountSucceeded_append os tr (ext ++ [Call.mkdir work 448,
                Call.mount "overlay".toList f.Mountpoint "overlay".toList 0
                  (mountData f.Layers.dropLast ‹Layer› work)]) (h hm)
              simpa using this
            · rename_i hmnt
              intro _
              exact ⟨tr ++ ext ++ [Call.mkdir work 448], Call.mount "overlay".toList f.Mountpoint
                "overlay".toList 0 (mountData f.Layers.dropLast ‹Layer› work), [], by simp, rfl, hmnt⟩

theorem Unmount_inv (os : OS) (f : Filesystem) (tr : List Call)
    (h : f.mounted = true → mountSucceeded os tr) :
    (Filesystem.Unmount os f tr).2.1.mounted = true →
      mountSucceeded os (Filesystem.Unmount os f tr).2.2 := by
  unfold Filesystem.Unmount
  split
  · simpa using h
  · dsimp only
    split
    · intro hm
      exact mountSucceeded_append os tr _ (h hm)
    · split
      · intro hm
        have := mountSucceeded_append os tr [Call.unmount f.Mountpoint 0, Call.removeAll f.workDir] (h hm)
        simpa using this
      · simp

theorem runOps_inv (os : OS) (ops : List Op) (s : Filesystem × List Call)
    (h : s.1.mounted = true → mountSucceeded os s.2) :
    (runOps os s ops).1.mounted = true → mountSucceeded os (runOps os s ops).2 := by
  induction ops generalizing s with
  | nil => simpa [runOps] using h
  | cons op ops ih =>
    have : runOps os s (op :: ops) = runOps os (stepOp os s op) ops := rfl
    rw [this]
    apply ih
    cases op with
    | mount work => exact Mount_inv os s.1 work s.2 h
    | unmount => exact Unmount_inv os s.1 s.2 h
    | setLayers ls => exact h
    | setMountpoint p => exact h

/-- C8: the mounted flag as a state machine.  After `Mount` returns nil the flag
is set; after `Unmount` returns nil it is cleared; an `Unmount` on an unmounted
filesystem returns `ErrNotMounted`, makes no system call and changes nothing;
and, starting unmounted with no calls made, whatever the caller does the flag
is set only if some mount call was answered with success. -/
theorem C8_mounted_state_machine (os : OS) (f : Filesystem) (work : Str) (tr : List Call)
    (ops : List Op) :
    ((Filesystem.Mount os f work tr).1 = .ok () →
      (Filesystem.Mount os f work tr).2.1.Mounted = true) ∧
    ((Filesystem.Unmount os f tr).1 = .ok () →
      (Filesystem.Unmount os f tr).2.1.Mounted = false) ∧
    (f.Mounted = false → Filesystem.Unmount os f tr = (.error .ErrNotMounted, f, tr)) ∧
    (f.Mounted = false → (runOps os (f, []) ops).1.Mounted = true →
      mountSucceeded os (runOps os (f, []) ops).2) := by
  refine ⟨?_, ?_, ?_, ?_⟩
  · unfold Filesystem.Mount
    rcases createMissing os f.Layers tr with ⟨r, tr1⟩
    cases r with
    | some e => simp
    | none =>
      dsimp only
      repeat' split
      all_goals simp [Filesystem.Mounted]
  · unfold Filesystem.Unmount
    dsimp only
    repeat' split
    all_goals simp [Filesystem.Mounted]
  · intro h
    have h1 : f.mounted = false := h
    simp [Filesystem.Unmount, h1]
  · intro h
    have h1 : f.mounted = false := h
    exact runOps_inv os ops (f, []) (by simp [h1])

/-- C8, at the two layers of `TestFilesystemMount` on a system where every
call succeeds: mount, unmount, and a second unmount. -/
theorem C8_mounted_state_machine_witness :
    (Filesystem.Mount osAllOk fsTwo "/tmp/box/work".toList []).2.1.Mounted = true ∧
    (Filesystem.Unmount osAllOk (Filesystem.Mount osAllOk fsTwo "/tmp/box/work".toList []).2.1
      []).2.1.Mounted = false ∧
    Filesystem.Unmount osAllOk fsTwo [] = (.error .ErrNotMounted, fsTwo, []) ∧
    mountSucceeded osAllOk (runOps osAllOk (fsTwo, []) [.mount "/tmp/box/work".toList]).2 :=
  ⟨(C8_mounted_state_machine osAllOk fsTwo "/tmp/box/work".toList [] []).1 (by decide),
   (C8_mounted_state_machine osAllOk
      (Filesystem.Mount osAllOk fsTwo "/tmp/box/work".toList []).2.1
      "/tmp/box/work".toList [] []).2.1 (by decide),
   (C8_mounted_state_machine osAllOk fsTwo "/tmp/box/work".toList [] []).2.2.1 (by decide),
   (C8_mounted_state_machine osAllOk fsTwo "/tmp/box/work".toList []
      [.mount "/tmp/box/work".toList]).2.2.2 (by decide) (by decide)⟩

/-! ## Evaluations of `New`, `Mount`, `Unmount` and `Unarchive` -/

/-- C5: `New` looks for `..` among the `:`-separated elements of the dirname,
so a dirname with a `..` segment between slashes is accepted: for `../x` and
for `a/../b` it returns a layer, and the path of the first lies outside the
working directory. -/
theorem C5_new_accepts_dotdot_segment :
    New (.ok "/home".toList) "../x".toList "/tmp".toList =
      .ok { dirname := "../x".toList, workingDir := "/tmp".toList } ∧
    New (.ok "/home".toList) "a/../b".toList "/tmp".toList =
      .ok { dirname := "a/../b".toList, workingDir := "/tmp".toList } ∧
    Layer.Path { dirname := "../x".toList, workingDir := "/tmp".toList } = "/x".toList ∧
    New (.ok "/home".toList) "..".toList "/tmp".toList =
      .error (.errorf "Cannot use .. in path names") :=
  ⟨rfl, rfl, rfl, rfl⟩

/-- C6: with no layers at all `Mount` does not return: after the (empty) loop
over the layers the slice expression panics, whatever the system answers. -/
theorem C6_mount_without_layers_panics (os : OS) (mp wd work : Str) (m : Bool)
    (tr : List Call) :
    Filesystem.Mount os { Layers := [], Mountpoint := mp, workDir := wd, mounted := m } work tr =
      (.panicked, { Layers := [], Mountpoint := mp, workDir := wd, mounted := m }, tr) :=
  rfl

/-- C7: when the unmount call succeeds and the removal of the work directory
fails, `Unmount` returns an error and the flag is still set. -/
theorem C7_unmount_remove_failure_keeps_flag (ls : List Layer) (mp wd : Str) (tr : List Call) :
    Filesystem.Unmount osRemoveFails
        { Layers := ls, Mountpoint := mp, workDir := wd, mounted := true } tr =
      (.error (.errorf "Could not remove work dir"),
       { Layers := ls, Mountpoint := mp, workDir := wd, mounted := true },
       tr ++ [Call.unmount mp 0, Call.removeAll wd]) ∧
    (Filesystem.Unmount osRemoveFails
        { Layers := ls, Mountpoint := mp, workDir := wd, mounted := true } tr).2.1.Mounted = true :=
  ⟨rfl, rfl⟩

/-- C1: unpacking the entry `../x` into `/tmp/dest` returns nil and writes the
file `/tmp/x`, outside the destination. -/
theorem C1_unarchive_writes_outside :
    Unarchive chownOk destTmp "/tmp/dest".toList (.ok tarEscape) =
      (none, ("/tmp/x".toList, .file [1, 2, 3]) :: destTmp) ∧
    Rel "/tmp/dest".toList "/tmp/x".toList = .ok "../x".toList :=
  ⟨by decide, rfl⟩

/-- C9: unpacking a two-byte entry `f` over a five-byte file `f` returns nil and
leaves the last three bytes of the old file in place. -/
theorem C9_unarchive_keeps_old_tail :
    Unarchive chownOk destLong "/tmp/dest".toList (.ok tarShort) =
      (none, [("/tmp/dest/f".toList, .file [9, 9, 3, 4, 5]), ("/tmp".toList, .dir),
              ("/tmp/dest".toList, .dir)]) :=
  by decide

/-! ## Links that leave the archived directory -/

theorem archiveWalk_escape (w : World) (rel target : Str) (ignoreList : List Str)
    (tw : List Entry) (item : WalkItem) (h : escapes w rel ignoreList item) :
    (archiveWalk w rel target ignoreList tw item).1 ≠ none := by
  obtain ⟨fi, path, realpath, realrel, hinfo, hsym, habs, hign, hreal, hrel, hout⟩ := h
  unfold archiveWalk
  rw [hinfo]
  simp only [habs]
  cases hr : Rel rel path with
  | error e => simp
  | ok relpath =>
    simp only
    cases hc : checkIgnore w rel path ignoreList with
    | some e =>
      simp only
      have : e ≠ .errIgnore := fun he => hign (by rw [hc, he])
      simp [this]
    | none =>
      simp only [FileInfoHeader, hsym, hreal, hrel, hout]
      simp

theorem walkAll_escape (w : World) (rel target : Str) (ignoreList : List Str)
    (items : List WalkItem) (tw : List Entry) (item : WalkItem) (hmem : item ∈ items)
    (h : escapes w rel ignoreList item) :
    (walkAll w rel target ignoreList items tw).1 ≠ none := by
  induction items generalizing tw with
  | nil => cases hmem
  | cons it rest ih =>
    unfold walkAll
    rcases hw : archiveWalk w rel target ignoreList tw it with ⟨r, tw1⟩
    cases r with
    | some e => simp
    | none =>
      simp only
      rcases List.mem_cons.1 hmem with heq | hin
      · subst heq
        have := archiveWalk_escape w rel target ignoreList tw item h
        rw [hw] at this
        exact absurd rfl this
      · exact ih tw1 hin

theorem archiveLoop_escape (w : World) (ctx : Nat → Option Err) (ignoreList : List Str)
    (lstats : List lstatInfo) (k : Nat) (target : Str) (tw : List Entry) (li : lstatInfo)
    (item : WalkItem) (hli : li ∈ lstats) (hdir : li.fi.IsDir = true)
    (hitem : item ∈ w.walk li.filename) (h : escapes w li.filename ignoreList item) :
    (archiveLoop w ctx ignoreList lstats k target tw).1 ≠ none := by
  induction lstats generalizing k target tw with
  | nil => cases hli
  | cons l rest ih =>
    unfold archiveLoop
    cases hctx : ctx k with
    | some e => simp
    | none =>
      simp only
      by_cases hl : l = li
      · subst hl
        simp only [hdir, if_true]
        cases FileInfoHeader l.fi l.filename with
        | error e => simp
        | ok header =>
          simp only
          split
          · simp
          · rename_i hwh
            split
            · simp
            · rename_i tw1 hwalk
              have hne : ∀ tw0, (walkAll w l.filename
                  (if target = ['.'] then l.filename else target) ignoreList (w.walk l.filename)
                  tw0).1 ≠ none :=
                fun tw0 => walkAll_escape w l.filename _ ignoreList (w.walk l.filename) tw0 item
                  hitem h
              exact absurd (congrArg Prod.fst hwalk) (hne _)
      · have hin : li ∈ rest := by
          rcases List.mem_cons.1 hli with heq | hin
          · exact absurd heq.symm hl
          · exact hin
        split
        · split
          · simp
          · split
            · simp
            · split
              · simp
              · exact ih _ _ _ hin
        · split
          · split
            · simp
            · exact ih _ _ _ hin
          · split
            · exact ih _ _ _ hin
            · simp

theorem Archive_error_empty (w : World) (ctx : Nat → Option Err) (rel target : Str)
    (ignoreList : List Str) (h : (Archive w ctx rel target ignoreList).err ≠ none) :
    (Archive w ctx rel target ignoreList).file = [] ∧
      (Archive w ctx rel target ignoreList).digest = [] := by
  revert h
  unfold Archive
  repeat' split
  all_goals simp

/-- C2: when the walk of a directory being archived meets a symbolic link that
is not ignored and whose real path, relative to the directory, begins with
`..`, then `Archive` returns an error, an empty file name and an empty digest. -/
theorem C2_archive_link_escape_fails (w : World) (ctx : Nat → Option Err) (rel target : Str)
    (ignoreList entries : List Str) (lstatEntries : List lstatInfo) (li : lstatInfo)
    (item : WalkItem) (fi : FileInfo) (path realpath realrel : Str)
    (hglob : w.glob rel = .ok entries)
    (hproc : processEntries w entries = .ok lstatEntries)
    (hli : li ∈ lstatEntries) (hdir : li.fi.IsDir = true)
    (hitem : item ∈ w.walk li.filename)
    (hinfo : item.info = .ok fi) (hsym : fi.kind = .symlink)
    (habs : Abs w.getwd item.path = .ok path)
    (hign : checkIgnore w li.filename path ignoreList ≠ some .errIgnore)
    (hreal : w.evalSymlinks path = .ok realpath)
    (hrel : Rel li.filename realpath = .ok realrel)
    (hout : HasPrefix realrel ['.', '.'] = true) :
    (Archive w ctx rel target ignoreList).err ≠ none ∧
      (Archive w ctx rel target ignoreList).file = [] ∧
      (Archive w ctx rel target ignoreList).digest = [] := by
  have hesc : escapes w li.filename ignoreList item :=
    ⟨fi, path, realpath, realrel, hinfo, hsym, habs, hign, hreal, hrel, hout⟩
  have herr : (Archive w ctx rel target ignoreList).err ≠ none := by
    unfold Archive
    cases ctx 0 with
    | some e => simp
    | none =>
      simp only [hglob, hproc]
      cases w.tempFile with
      | error e => simp
      | ok f =>
        simp only
        have := archiveLoop_escape w ctx ignoreList lstatEntries 1 target [] li item hli hdir
          hitem hesc
        split
        · simp
        · rename_i hloop
          exact absurd (congrArg Prod.fst hloop) this
  exact ⟨herr, Archive_error_empty w ctx rel target ignoreList herr⟩

/-- C2, at the directory `/src` with the link `evil` to `/etc/passwd`. -/
theorem C2_archive_link_escape_fails_witness :
    (Archive escapeWorld ctxLive "/src".toList "/".toList []).err ≠ none ∧
      (Archive escapeWorld ctxLive "/src".toList "/".toList []).file = [] ∧
      (Archive escapeWorld ctxLive "/src".toList "/".toList []).digest = [] :=
  C2_archive_link_escape_fails escapeWorld ctxLive "/src".toList "/".toList [] ["/src".toList]
    [{ filename := "/src".toList, fi := flatDirInfo "/src".toList }]
    { filename := "/src".toList, fi := flatDirInfo "/src".toList }
    { path := "/src/evil".toList, info := .ok (flatInfo "evil".toList (.link "x".toList)) }
    (flatInfo "evil".toList (.link "x".toList)) "/src/evil".toList "/etc/passwd".toList
    "../etc/passwd".toList rfl rfl (List.mem_singleton.2 rfl) rfl
    (List.mem_cons_of_mem _ (List.mem_singleton.2 rfl)) rfl rfl rfl (by simp [checkIgnore]) rfl rfl
    rfl

/-! ## Lemmas on cleaned absolute paths -/

theorem splitOn_ne_nil (sep : Char) (s : Str) : splitOn sep s ≠ [] := by
  cases s with
  | nil => simp [splitOn]
  | cons c cs =>
    unfold splitOn
    split
    · simp
    · split <;> simp

theorem splitOn_cons_ne (sep c : Char) (s : Str) (hc : c ≠ sep) :
    splitOn sep (c :: s) = (c :: (splitOn sep s).headD []) :: (splitOn sep s).tail := by
  rw [splitOn]
  simp only [hc, if_false]
  cases hs : splitOn sep s with
  | nil => exact absurd hs (splitOn_ne_nil sep s)
  | cons w ws => simp

theorem splitOn_append (sep : Char) (a b : Str) :
    splitOn sep (a ++ sep :: b) = splitOn sep a ++ splitOn sep b := by
  induction a with
  | nil => simp [splitOn]
  | cons c a ih =>
    by_cases hc : c = sep
    · simp [splitOn, hc, ih]
    · rw [List.cons_append, splitOn_cons_ne sep c _ hc, splitOn_cons_ne sep c _ hc, ih]
      cases hs : splitOn sep a with
      | nil => exact absurd hs (splitOn_ne_nil sep a)
      | cons w ws => simp

theorem splitOn_noSep (sep : Char) (s : Str) (h : sep ∉ s) : splitOn sep s = [s] := by
  induction s with
  | nil => simp [splitOn]
  | cons c cs ih =>
    have hc : c ≠ sep := fun e => h (by simp [e])
    have hcs : sep ∉ cs := fun e => h (by simp [e])
    rw [splitOn_cons_ne sep c _ hc, ih hcs]
    simp

theorem joinSep_cons_cons (sep : Char) (a b : Str) (cs : List Str) :
    joinSep sep (a :: b :: cs) = a ++ sep :: joinSep sep (b :: cs) := rfl

theorem splitOn_joinSep (sep : Char) (cs : List Str) (hne : cs ≠ [])
    (h : ∀ c ∈ cs, sep ∉ c) : splitOn sep (joinSep sep cs) = cs := by
  induction cs with
  | nil => exact absurd rfl hne
  | cons a cs ih =>
    cases cs with
    | nil => simpa [joinSep] using splitOn_noSep sep a (h a (by simp))
    | cons b cs =>
      rw [joinSep_cons_cons, splitOn_append, splitOn_noSep sep a (h a (by simp)),
        ih (by simp) (fun c hc => h c (by simp [hc]))]
      simp

theorem cleanStep_simple (r : Bool) (out : List Str) (c : Str) (h : simpleName c) :
    cleanStep r out c = c :: out := by
  obtain ⟨h1, _, h3, h4⟩ := h
  simp [cleanStep, h1, h3, h4]

theorem cleanStep_empty (r : Bool) (out : List Str) : cleanStep r out [] = out := by
  simp [cleanStep]

theorem cleanStep_dot (r : Bool) (out : List Str) : cleanStep r out ['.'] = out := by
  simp [cleanStep]

theorem foldl_cleanStep_simple (r : Bool) (cs out : List Str) (h : ∀ c ∈ cs, simpleName c) :
    cs.foldl (cleanStep r) out = cs.reverse ++ out := by
  induction cs generalizing out with
  | nil => simp
  | cons c cs ih =>
    simp only [List.foldl_cons]
    rw [cleanStep_simple r out c (h c (by simp)), ih _ (fun d hd => h d (by simp [hd]))]
    simp

theorem foldl_cleanStep_joinSep (r : Bool) (cs : List Str) (h : ∀ c ∈ cs, simpleName c) :
    (splitOn '/' (joinSep '/' cs)).foldl (cleanStep r) [] = cs.reverse := by
  cases cs with
  | nil => simp [joinSep, splitOn, cleanStep]
  | cons a cs =>
    rw [splitOn_joinSep '/' (a :: cs) (by simp) (fun c hc => (h c hc).2.1),
      foldl_cleanStep_simple r _ _ h]
    simp

theorem Clean_rooted (s : Str) :
    Clean ('/' :: s) =
      '/' :: joinSep '/' ((splitOn '/' ('/' :: s)).foldl (cleanStep true) []).reverse := by
  simp [Clean]

theorem Clean_absPath_append (cs : List Str) (x : Str) (h : ∀ c ∈ cs, simpleName c) :
    Clean (absPath cs ++ '/' :: x) =
      absPath ((splitOn '/' x).foldl (cleanStep true) cs.reverse).reverse := by
  have hs : splitOn '/' ('/' :: (joinSep '/' cs ++ '/' :: x)) =
      [] :: (splitOn '/' (joinSep '/' cs) ++ splitOn '/' x) := by
    simp [splitOn, splitOn_append]
  show Clean ('/' :: (joinSep '/' cs ++ '/' :: x)) = _
  rw [Clean_rooted, hs, List.foldl_cons, List.foldl_append, cleanStep_empty,
    foldl_cleanStep_joinSep true cs h]
  rfl

theorem Clean_absPath (cs : List Str) (h : ∀ c ∈ cs, simpleName c) :
    Clean (absPath cs) = absPath cs := by
  have hs : splitOn '/' ('/' :: joinSep '/' cs) = [] :: splitOn '/' (joinSep '/' cs) := by
    simp [splitOn]
  show Clean ('/' :: joinSep '/' cs) = _
  rw [Clean_rooted, hs, List.foldl_cons, cleanStep_empty, foldl_cleanStep_joinSep true cs h]
  simp [absPath]

theorem Join_absPath_names (cs ds : List Str) (h : ∀ c ∈ cs, simpleName c)
    (hd : ∀ c ∈ ds, simpleName c) :
    Join (absPath cs) (joinSep '/' ds) = absPath (cs ++ ds) := by
  have : Join (absPath cs) (joinSep '/' ds) = Clean (absPath cs ++ '/' :: joinSep '/' ds) := by
    simp [Join, absPath]
  rw [this, Clean_absPath_append cs _ h]
  cases ds with
  | nil => simp [joinSep, splitOn, cleanStep]
  | cons a ds =>
    rw [splitOn_joinSep '/' (a :: ds) (by simp) (fun c hc => (hd c hc).2.1),
      foldl_cleanStep_simple true _ _ hd]
    simp

theorem Join_absPath_empty (cs : List Str) (h : ∀ c ∈ cs, simpleName c) :
    Join (absPath cs) [] = absPath cs := by
  simpa [joinSep] using Join_absPath_names cs [] h (by simp)

theorem Join_absPath_dot (cs : List Str) (h : ∀ c ∈ cs, simpleName c) :
    Join (absPath cs) ['.'] = absPath cs := by
  have : Join (absPath cs) ['.'] = Clean (absPath cs ++ '/' :: ['.']) := by
    simp [Join, absPath]
  rw [this, Clean_absPath_append cs _ h]
  simp [splitOn, cleanStep]

theorem joinSep_singleton (sep : Char) (a : Str) : joinSep sep [a] = a := rfl

theorem Join_absPath_name (cs : List Str) (n : Str) (h : ∀ c ∈ cs, simpleName c)
    (hn : simpleName n) : Join (absPath cs) n = absPath (cs ++ [n]) := by
  simpa [joinSep] using Join_absPath_names cs [n] h (by simpa using hn)

/-! ## Entries written for symbolic links -/

/-- C10 (as stated, refuted): for the directory of `TestArchiveSpecialFile`
(a file `test` and a link `testsym` to it) the entry that `Archive` writes for
the link carries the symlink type flag and no bytes. -/
theorem C10_link_written_with_symlink_flag :
    (Archive (flatWorld "/src".toList filesSym shaConst) ctxLive "/src".toList "/".toList
        []).written =
      [{ header := { Typeflag := .TypeDir, Name := "/".toList, Linkname := "/".toList,
                     Size := 0, Mode := 493, Uid := 0, Gid := 0 }, data := [] },
       { header := { Typeflag := .TypeReg, Name := "/test".toList, Linkname := [],
                     Size := 2, Mode := 420, Uid := 0, Gid := 0 }, data := [7, 8] },
       { header := { Typeflag := .TypeSymlink, Name := "/test".toList,
                     Linkname := "/testsym".toList, Size := 0, Mode := 511, Uid := 0,
                     Gid := 0 }, data := [] }] := by
  decide

/-- C10 (amended): for a symbolic link met by the walk that is not ignored and
whose real path lies inside the root, the callback writes exactly one entry:
the header made from the link's own file information, with the symlink type
flag, the link's logical path as link name and the real path's place below the
target as name, followed by no bytes. -/
theorem C10_link_entry (w : World) (rel target : Str) (ignoreList : List Str)
    (tw : List Entry) (item : WalkItem) (fi : FileInfo) (path relpath realpath realrel : Str)
    (hinfo : item.info = .ok fi) (hsym : fi.kind = .symlink)
    (habs : Abs w.getwd item.path = .ok path)
    (hrelpath : Rel rel path = .ok relpath)
    (hign : checkIgnore w rel path ignoreList = none)
    (hreal : w.evalSymlinks path = .ok realpath)
    (hrel : Rel rel realpath = .ok realrel)
    (hin : HasPrefix realrel ['.', '.'] = false)
    (hwrite : w.writeHeader tw
      { Typeflag := .TypeSymlink, Name := Join target realrel, Linkname := Join target relpath,
        Size := 0, Mode := fi.mode, Uid := fi.uid, Gid := fi.gid } = none) :
    archiveWalk w rel target ignoreList tw item =
      (none, tw ++ [{ header := { Typeflag := .TypeSymlink, Name := Join target realrel,
                                  Linkname := Join target relpath, Size := 0, Mode := fi.mode,
                                  Uid := fi.uid, Gid := fi.gid },
                      data := [] }]) := by
  unfold archiveWalk
  rw [hinfo]
  simp only [habs, hrelpath, hign, FileInfoHeader, hsym, hreal, hrel, hin]
  simp [writeTarFile, hwrite]

/-- C10 (amended), at the link `testsym` of `/src`. -/
theorem C10_link_entry_witness :
    archiveWalk (flatWorld "/src".toList filesSym shaConst) "/src".toList "/".toList [] []
        { path := "/src/testsym".toList,
          info := .ok (flatInfo "testsym".toList (.link "test".toList)) } =
      (none, [{ header := { Typeflag := .TypeSymlink, Name := "/test".toList,
                            Linkname := "/testsym".toList, Size := 0, Mode := 511,
                            Uid := 0, Gid := 0 },
                data := [] }]) :=
  C10_link_entry (flatWorld "/src".toList filesSym shaConst) "/src".toList "/".toList [] []
    { path := "/src/testsym".toList,
      info := .ok (flatInfo "testsym".toList (.link "test".toList)) }
    (flatInfo "testsym".toList (.link "test".toList)) "/src/testsym".toList "testsym".toList
    "/src/test".toList "test".toList rfl rfl rfl rfl rfl rfl rfl rfl rfl


theorem joinSep_ne_nil (sep : Char) (cs : List Str) (hne : cs ≠ []) (h : ∀ c ∈ cs, c ≠ []) :
    joinSep sep cs ≠ [] := by
  cases cs with
  | nil => exact absurd rfl hne
  | cons a cs =>
    have ha : a ≠ [] := h a (by simp)
    cases cs with
    | nil => simpa [joinSep] using ha
    | cons b cs => simp [joinSep, ha]

theorem joinSep_cons_eq (sep : Char) (a : Str) (cs : List Str) :
    ∃ x, joinSep sep (a :: cs) = a ++ x := by
  cases cs with
  | nil => exact ⟨[], by simp [joinSep]⟩
  | cons b cs => exact ⟨sep :: joinSep sep (b :: cs), rfl⟩

theorem relElems_absPath (cs : List Str) (h : ∀ c ∈ cs, simpleName c) :
    relElems (absPath cs) = [] :: (if cs = [] then [] else cs) := by
  by_cases hc : cs = []
  · subst hc
    simp [relElems, absPath, joinSep]
  · have hj : joinSep '/' cs ≠ [] := joinSep_ne_nil '/' cs hc (fun c hc' => (h c hc').1)
    have hs := splitOn_joinSep '/' cs hc (fun c hc' => (h c hc').2.1)
    simp [relElems, absPath, hj, hc, splitOn, hs]

theorem relLoop_nil_left (ts : List Str) : relLoop [] ts = (false, [], ts) := by
  cases ts <;> rfl

theorem relLoop_nil_right (bs : List Str) : relLoop bs [] = (false, bs, []) := by
  cases bs <;> rfl

theorem relLoop_cons_cons (b t : Str) (bs ts : List Str) :
    relLoop (b :: bs) (t :: ts) = if b = t then relLoop bs ts else (true, b :: bs, t :: ts) := by
  rw [relLoop]

theorem relLoop_relElems_absPath (bs ts : List Str) (hb : ∀ c ∈ bs, simpleName c)
    (ht : ∀ c ∈ ts, simpleName c) :
    relLoop (relElems (absPath bs)) (relElems (absPath ts)) = relLoop bs ts := by
  rw [relElems_absPath bs hb, relElems_absPath ts ht, relLoop_cons_cons]
  simp only [if_true]
  by_cases h1 : bs = [] <;> by_cases h2 : ts = [] <;> simp [h1, h2]

theorem absPath_inj (bs ts : List Str) (hb : ∀ c ∈ bs, simpleName c)
    (ht : ∀ c ∈ ts, simpleName c) (h : absPath ts = absPath bs) : ts = bs := by
  have hj : joinSep '/' ts = joinSep '/' bs := by simpa [absPath] using h
  by_cases h1 : bs = []
  · subst h1
    by_contra h2
    exact joinSep_ne_nil '/' ts h2 (fun c hc => (ht c hc).1) (by simpa [joinSep] using hj)
  · by_cases h2 : ts = []
    · subst h2
      exact absurd (by simpa [joinSep] using hj.symm)
        (joinSep_ne_nil '/' bs h1 (fun c hc => (hb c hc).1))
    · rw [← splitOn_joinSep '/' ts h2 (fun c hc => (ht c hc).2.1), hj,
        splitOn_joinSep '/' bs h1 (fun c hc => (hb c hc).2.1)]

theorem Rel_absPath (bs ts : List Str) (hb : ∀ c ∈ bs, simpleName c)
    (ht : ∀ c ∈ ts, simpleName c) :
    Rel (absPath bs) (absPath ts) =
      if ts = bs then .ok ['.']
      else relFinish (relLoop bs ts).1 (relLoop bs ts).2.1 (relLoop bs ts).2.2 := by
  unfold Rel
  simp only [Clean_absPath bs hb, Clean_absPath ts ht]
  by_cases h : ts = bs
  · simp [h]
  · have hne : absPath ts ≠ absPath bs := fun e => h (absPath_inj bs ts hb ht e)
    have hdot : absPath bs ≠ ['.'] := by simp [absPath]
    simp only [hne, h, hdot, if_false]
    rw [relLoop_relElems_absPath bs ts hb ht]
    simp [absPath]

theorem relLoop_prefix (cs ds : List Str) : relLoop cs (cs ++ ds) = (false, [], ds) := by
  induction cs with
  | nil => simpa using relLoop_nil_left ds
  | cons c cs ih => simp [relLoop_cons_cons, ih]

theorem Rel_absPath_below (cs ds : List Str) (hc : ∀ c ∈ cs, simpleName c)
    (hd : ∀ c ∈ ds, simpleName c) (hne : ds ≠ []) :
    Rel (absPath cs) (absPath (cs ++ ds)) = .ok (joinSep '/' ds) := by
  rw [Rel_absPath cs (cs ++ ds) hc (by
    intro c hmem
    rcases List.mem_append.1 hmem with h | h
    · exact hc c h
    · exact hd c h)]
  have : cs ++ ds ≠ cs := by
    intro e
    have := congrArg List.length e
    simp at this
    exact hne this
  simp [this, relLoop_prefix, relFinish]

theorem Rel_absPath_self (cs : List Str) (hc : ∀ c ∈ cs, simpleName c) :
    Rel (absPath cs) (absPath cs) = .ok ['.'] := by
  rw [Rel_absPath cs cs hc hc]
  simp

theorem HasPrefix_plain (a x : Str) (h : plainName a) : HasPrefix (a ++ x) ['.', '.'] = false := by
  obtain ⟨⟨h1, _, h3, _⟩, hp⟩ := h
  cases a with
  | nil => exact absurd rfl h1
  | cons c a =>
    cases a with
    | nil =>
      have hc : c ≠ '.' := fun e => h3 (by simp [e])
      simp [HasPrefix, List.isPrefixOf, hc, Ne.symm hc]
    | cons d a =>
      simpa [HasPrefix, List.isPrefixOf] using hp

theorem HasPrefix_joinSep_plain (sep : Char) (a : Str) (cs : List Str) (h : plainName a) :
    HasPrefix (joinSep sep (a :: cs)) ['.', '.'] = false := by
  obtain ⟨x, hx⟩ := joinSep_cons_eq sep a cs
  rw [hx]
  exact HasPrefix_plain a x h

theorem relFinish_up (differ : Bool) (b : Str) (bs ts : List Str)
    (h : ¬(differ = true ∧ b = ['.', '.'])) :
    ∃ r, relFinish differ (b :: bs) ts = .ok r ∧ HasPrefix r ['.', '.'] = true := by
  obtain ⟨x, hx⟩ := joinSep_cons_eq '/' ['.', '.'] (bs.map fun _ => ['.', '.'])
  have hups : joinSep '/' ((b :: bs).map fun _ => ['.', '.']) = '.' :: '.' :: x := by
    rw [List.map_cons, hx]
    rfl
  have hcond : ¬(differ = true ∧ (b :: bs).head? = some ['.', '.']) := by
    simpa using h
  unfold relFinish
  rw [if_neg hcond, if_pos (by simp)]
  dsimp only
  rw [hups]
  by_cases hts : ts = []
  · exact ⟨_, rfl, by simp [hts, HasPrefix, List.isPrefixOf]⟩
  · exact ⟨_, rfl, by simp [hts, HasPrefix, List.isPrefixOf]⟩

theorem ignored_relFinish (es ps : List Str) (he : ∀ c ∈ es, simpleName c)
    (hp : ∀ c ∈ ps, plainName c) :
    (match relFinish (relLoop es ps).1 (relLoop es ps).2.1 (relLoop es ps).2.2 with
      | .ok ok => !HasPrefix ok ['.', '.']
      | .error _ => false) = es.isPrefixOf ps := by
  induction es generalizing ps with
  | nil =>
    rw [relLoop_nil_left]
    cases ps with
    | nil => simp [relFinish, joinSep, HasPrefix, List.isPrefixOf]
    | cons p ps =>
      simp [relFinish, HasPrefix_joinSep_plain '/' p ps (hp p (by simp)), List.isPrefixOf]
  | cons e es ih =>
    have hdd : e ≠ ['.', '.'] := (he e (by simp)).2.2.2
    cases ps with
    | nil =>
      rw [relLoop_nil_right]
      obtain ⟨r, hr, hpre⟩ := relFinish_up false e es [] (by simp)
      dsimp only
      rw [hr]
      simp [hpre, List.isPrefixOf]
    | cons p ps =>
      rw [relLoop_cons_cons]
      by_cases hep : e = p
      · subst hep
        simp only [if_true]
        rw [ih ps (fun c hc => he c (by simp [hc])) (fun c hc => hp c (by simp [hc]))]
        simp [List.isPrefixOf]
      · simp only [hep, if_false]
        obtain ⟨r, hr, hpre⟩ := relFinish_up true e es (p :: ps) (by simp [hdd])
        rw [hr]
        simp [hpre, List.isPrefixOf, hep]

theorem ignoredBy_absPath (es ps : List Str) (he : ∀ c ∈ es, simpleName c)
    (hp : ∀ c ∈ ps, plainName c) :
    ignoredBy (absPath es) (absPath ps) = es.isPrefixOf ps := by
  unfold ignoredBy
  rw [Rel_absPath es ps he (fun c hc => (hp c hc).1)]
  by_cases h : ps = es
  · subst h
    simp [HasPrefix, List.isPrefixOf]
  · simp only [h, if_false]
    exact ignored_relFinish es ps he hp

/-! ## Ignore rules -/

theorem pathElems_absPath (cs : List Str) (h : ∀ c ∈ cs, simpleName c) :
    pathElems (absPath cs) = cs := by
  have hs : splitOn '/' ('/' :: joinSep '/' cs) = [] :: splitOn '/' (joinSep '/' cs) := by
    simp [splitOn]
  show (splitOn '/' ('/' :: joinSep '/' cs)).filter _ = cs
  rw [hs]
  by_cases hc : cs = []
  · subst hc
    simp [joinSep, splitOn]
  · rw [splitOn_joinSep '/' cs hc (fun c hc' => (h c hc').2.1)]
    simp only [ne_eq, not_true_eq_false, decide_False, Bool.false_eq_true, not_false_eq_true,
      List.filter_cons_of_neg]
    rw [List.filter_eq_self]
    intro c hc'
    simpa using (h c hc').1

theorem onPathTo_absPath (es ps : List Str) (he : ∀ c ∈ es, simpleName c)
    (hp : ∀ c ∈ ps, simpleName c) :
    onPathTo (absPath es) (absPath ps) = es.isPrefixOf ps := by
  unfold onPathTo
  rw [pathElems_absPath es he, pathElems_absPath ps hp]

theorem ignoredBy_cleanAbs (e : Str) (ps : List Str) (he : cleanAbs e)
    (hp : ∀ c ∈ ps, plainName c) :
    ignoredBy e (absPath ps) = onPathTo e (absPath ps) := by
  obtain ⟨es, hes, rfl⟩ := he
  rw [ignoredBy_absPath es ps hes hp, onPathTo_absPath es ps hes (fun c hc => (hp c hc).1)]

theorem checkIgnore_globHits (w : World) (rel : Str) (ps : List Str) (ignoreList : List Str)
    (hp : ∀ c ∈ ps, plainName c)
    (hglob : ∀ ign ∈ ignoreList, ∃ es, w.glob (Join rel ign) = .ok es ∧ ∀ e ∈ es, cleanAbs e) :
    (globHits w rel (absPath ps) ignoreList →
        checkIgnore w rel (absPath ps) ignoreList = some .errIgnore) ∧
    (¬ globHits w rel (absPath ps) ignoreList →
        checkIgnore w rel (absPath ps) ignoreList = none) := by
  induction ignoreList with
  | nil =>
    constructor
    · rintro ⟨ign, hmem, _⟩
      cases hmem
    · intro _
      rfl
  | cons ign rest ih =>
    obtain ⟨es, hes, hclean⟩ := hglob ign (by simp)
    have ih' := ih (fun i hi => hglob i (by simp [hi]))
    have hany : (es.any fun entry => ignoredBy entry (absPath ps)) = true ↔
        ∃ e ∈ es, onPathTo e (absPath ps) = true := by
      rw [List.any_eq_true]
      constructor
      · rintro ⟨e, he, h⟩
        exact ⟨e, he, by rw [← ignoredBy_cleanAbs e ps (hclean e he) hp]; exact h⟩
      · rintro ⟨e, he, h⟩
        exact ⟨e, he, by rw [ignoredBy_cleanAbs e ps (hclean e he) hp]; exact h⟩
    by_cases hhit : ∃ e ∈ es, onPathTo e (absPath ps) = true
    · have hg : globHits w rel (absPath ps) (ign :: rest) := ⟨ign, by simp, es, hes, hhit⟩
      refine ⟨fun _ => ?_, fun hn => absurd hg hn⟩
      simp only [checkIgnore, hes]
      rw [if_pos (hany.2 hhit)]
    · have hnot : ¬ (es.any fun entry => ignoredBy entry (absPath ps)) = true :=
        fun h => hhit (hany.1 h)
      have hstep : checkIgnore w rel (absPath ps) (ign :: rest) =
          checkIgnore w rel (absPath ps) rest := by
        simp only [checkIgnore, hes]
        rw [if_neg hnot]
      rw [hstep]
      constructor
      · rintro ⟨i, hi, es', hes', hhit'⟩
        rcases List.mem_cons.1 hi with heq | hin
        · subst heq
          rw [hes] at hes'
          cases hes'
          exact absurd hhit' hhit
        · exact ih'.1 ⟨i, hin, es', hes', hhit'⟩
      · intro hn
        exact ih'.2 (fun ⟨i, hi, rest'⟩ => hn ⟨i, by simp [hi], rest'⟩)

theorem mem_append_plain (rcs pcs : List Str) (hr : ∀ c ∈ rcs, plainName c)
    (hp : ∀ c ∈ pcs, plainName c) : ∀ c ∈ rcs ++ pcs, plainName c := by
  intro c hmem
  rcases List.mem_append.1 hmem with h | h
  · exact hr c h
  · exact hp c h

theorem Abs_absPath (getwd : Except Err Str) (cs : List Str) (h : ∀ c ∈ cs, simpleName c) :
    Abs getwd (absPath cs) = .ok (absPath cs) := by
  simp [Abs, IsAbs, HasPrefix, absPath, List.isPrefixOf]
  exact Clean_absPath cs h


/-- C4 (as stated, refuted): with the ignore rule `.` the only glob result is
the root itself, no pattern matches `bar1` or a directory below the root, and
yet `Archive` succeeds and writes no entry but the one of the root. -/
theorem C4_dot_rule_ignores_all :
    (Archive (flatWorld "/src".toList filesFoo shaConst) ctxLive "/src".toList "/".toList
        [".".toList]).err = none ∧
    (Archive (flatWorld "/src".toList filesFoo shaConst) ctxLive "/src".toList "/".toList
        [".".toList]).written.map (fun e => e.header.Name) = ["/".toList] ∧
    (flatWorld "/src".toList filesFoo shaConst).glob (Join "/src".toList ".".toList) =
      .ok ["/src".toList] :=
  ⟨by decide, by decide, rfl⟩

/-- C4 (amended): for a regular file met by the walk below an absolute cleaned
root, no element of its path beginning with two dots, and an ignore list whose
patterns expand without error to absolute cleaned paths: the callback writes
nothing when some glob result is the file's path or a directory on the way to
it (the root and those above it included), and otherwise it writes the file's
entry (regular header named by the file's place below the target, then the
file's bytes).  With the rule `foo*` and a root holding `bar1`, `foo1` and
`foo2` the entries are those of the root and of `bar1`. -/
theorem C4_entry_iff_not_ignored (w : World) (target : Str) (ignoreList : List Str)
    (tw : List Entry) (item : WalkItem) (fi : FileInfo) (rcs pcs : List Str) (bytes : Bytes)
    (hroot : ∀ c ∈ rcs, plainName c) (hbelow : ∀ c ∈ pcs, plainName c) (hne : pcs ≠ [])
    (hpath : item.path = absPath (rcs ++ pcs))
    (hinfo : item.info = .ok fi) (hreg : fi.kind = .regular)
    (hglob : ∀ ign ∈ ignoreList,
      ∃ es, w.glob (Join (absPath rcs) ign) = .ok es ∧ ∀ e ∈ es, cleanAbs e)
    (hreal : w.evalSymlinks (absPath (rcs ++ pcs)) = .ok (absPath (rcs ++ pcs)))
    (hwrite : ∀ h : Header, w.writeHeader tw h = none)
    (hread : w.readFile (absPath (rcs ++ pcs)) = .ok bytes) :
    (globHits w (absPath rcs) (absPath (rcs ++ pcs)) ignoreList →
      archiveWalk w (absPath rcs) target ignoreList tw item = (none, tw)) ∧
    (¬ globHits w (absPath rcs) (absPath (rcs ++ pcs)) ignoreList →
      archiveWalk w (absPath rcs) target ignoreList tw item =
        (none, tw ++ [{ header := { Typeflag := .TypeReg, Name := Join target (joinSep '/' pcs),
                                    Linkname := [], Size := fi.size, Mode := fi.mode,
                                    Uid := fi.uid, Gid := fi.gid },
                        data := bytes }])) ∧
    (Archive (flatWorld "/src".toList filesFoo shaConst) ctxLive "/src".toList "/".toList
        ["foo*".toList]).written.map (fun e => e.header.Name) = ["/".toList, "/bar1".toList] := by
  have hall := mem_append_plain rcs pcs hroot hbelow
  have hsr : ∀ c ∈ rcs, simpleName c := fun c hc => (hroot c hc).1
  have hsp : ∀ c ∈ pcs, simpleName c := fun c hc => (hbelow c hc).1
  have hsall : ∀ c ∈ rcs ++ pcs, simpleName c := fun c hc => (hall c hc).1
  have hci := checkIgnore_globHits w (absPath rcs) (rcs ++ pcs) ignoreList hall hglob
  have hrel := Rel_absPath_below rcs pcs hsr hsp hne
  have hpre : HasPrefix (joinSep '/' pcs) ['.', '.'] = false := by
    cases pcs with
    | nil => exact absurd rfl hne
    | cons p ps => exact HasPrefix_joinSep_plain '/' p ps (hbelow p (by simp))
  refine ⟨fun hhit => ?_, fun hno => ?_, by decide⟩
  · unfold archiveWalk
    rw [hinfo]
    simp only [hpath, Abs_absPath w.getwd _ hsall, hrel, hci.1 hhit]
    simp
  · unfold archiveWalk
    rw [hinfo]
    simp only [hpath, Abs_absPath w.getwd _ hsall, hrel, hci.2 hno, FileInfoHeader, hreg, hreal,
      hpre]
    simp [writeTarFile, hwrite, hread]

/-- C4 (amended), at the file `bar1` of `/src` under the rule `foo*`. -/
theorem C4_entry_iff_not_ignored_witness :
    (globHits (flatWorld "/src".toList filesFoo shaConst) (absPath ["src".toList])
        (absPath (["src".toList] ++ ["bar1".toList])) ["foo*".toList] →
      archiveWalk (flatWorld "/src".toList filesFoo shaConst) (absPath ["src".toList])
        "/".toList ["foo*".toList] []
        { path := "/src/bar1".toList, info := .ok (flatInfo "bar1".toList (.regular [1])) } =
          (none, [])) ∧
    (¬ globHits (flatWorld "/src".toList filesFoo shaConst) (absPath ["src".toList])
        (absPath (["src".toList] ++ ["bar1".toList])) ["foo*".toList] →
      archiveWalk (flatWorld "/src".toList filesFoo shaConst) (absPath ["src".toList])
        "/".toList ["foo*".toList] []
        { path := "/src/bar1".toList, info := .ok (flatInfo "bar1".toList (.regular [1])) } =
          (none, [] ++ [{ header := { Typeflag := .TypeReg,
                                      Name := Join "/".toList (joinSep '/' ["bar1".toList]),
                                      Linkname := [], Size := 1, Mode := 420, Uid := 0,
                                      Gid := 0 },
                          data := [1] }])) ∧
    (Archive (flatWorld "/src".toList filesFoo shaConst) ctxLive "/src".toList "/".toList
        ["foo*".toList]).written.map (fun e => e.header.Name) = ["/".toList, "/bar1".toList] :=
  C4_entry_iff_not_ignored (flatWorld "/src".toList filesFoo shaConst) "/".toList
    ["foo*".toList] []
    { path := "/src/bar1".toList, info := .ok (flatInfo "bar1".toList (.regular [1])) }
    (flatInfo "bar1".toList (.regular [1])) ["src".toList] ["bar1".toList] [1]
    (by decide) (by decide) (by decide) rfl rfl rfl
    (by
      intro ign hign
      have : ign = "foo*".toList := by simpa using hign
      subst this
      refine ⟨["/src/foo1".toList, "/src/foo2".toList], rfl, ?_⟩
      intro e he
      rcases List.mem_cons.1 he with h | h
      · exact ⟨["src".toList, "foo1".toList], by decide, h⟩
      · exact ⟨["src".toList, "foo2".toList], by decide, List.mem_singleton.1 h⟩)
    rfl (fun _ => rfl) rfl

/-! ## A flat directory: archiving -/

theorem lookup_of_mem_nodup {β : Type} (l : List (Str × β)) (k : Str) (v : β)
    (hnd : (l.map Prod.fst).Nodup) (hmem : (k, v) ∈ l) : l.lookup k = some v := by
  induction l with
  | nil => cases hmem
  | cons a l ih =>
    obtain ⟨a1, a2⟩ := a
    simp only [List.map_cons, List.nodup_cons] at hnd
    rcases List.mem_cons.1 hmem with h | h
    · cases h
      simp [List.lookup]
    · have hne : k ≠ a1 := by
        intro e
        subst e
        exact hnd.1 (List.mem_map.2 ⟨(k, v), h, rfl⟩)
      have hb : (k == a1) = false := by simpa using hne
      simp only [List.lookup, hb]
      exact ih hnd.2 h

theorem find_of_key {β : Type} (l : List (Str × β)) (p : Str × β → Bool) (n : Str) (v : β)
    (hnd : (l.map Prod.fst).Nodup) (hmem : (n, v) ∈ l)
    (hp : ∀ f ∈ l, p f = true ↔ f.1 = n) : l.find? p = some (n, v) := by
  induction l with
  | nil => cases hmem
  | cons a l ih =>
    obtain ⟨a1, a2⟩ := a
    simp only [List.map_cons, List.nodup_cons] at hnd
    rcases List.mem_cons.1 hmem with h | h
    · cases h
      have : p (n, v) = true := (hp (n, v) (by simp)).2 rfl
      simp [List.find?, this]
    · have hne : a1 ≠ n := by
        intro e
        subst e
        exact hnd.1 (List.mem_map.2 ⟨(a1, v), h, rfl⟩)
      have : p (a1, a2) = false := by
        cases hpa : p (a1, a2) with
        | false => rfl
        | true => exact absurd ((hp (a1, a2) (by simp)).1 hpa) hne
      simp only [List.find?, this]
      exact ih hnd.2 h (fun f hf => hp f (by simp [hf]))

theorem absPath_snoc_inj (cs : List Str) (a b : Str) (hc : ∀ c ∈ cs, simpleName c)
    (ha : simpleName a) (hb : simpleName b) (h : absPath (cs ++ [a]) = absPath (cs ++ [b])) :
    a = b := by
  have hall : ∀ x : Str, simpleName x → ∀ c ∈ cs ++ [x], simpleName c := by
    intro x hx c hmem
    rcases List.mem_append.1 hmem with h | h
    · exact hc c h
    · rw [List.mem_singleton.1 h]
      exact hx
  have := absPath_inj (cs ++ [b]) (cs ++ [a]) (hall b hb) (hall a ha) h
  simpa using this

theorem absPath_snoc_ne (cs : List Str) (a : Str) (hc : ∀ c ∈ cs, simpleName c)
    (ha : simpleName a) : absPath (cs ++ [a]) ≠ absPath cs := by
  intro h
  have hall : ∀ c ∈ cs ++ [a], simpleName c := by
    intro c hmem
    rcases List.mem_append.1 hmem with h | h
    · exact hc c h
    · rw [List.mem_singleton.1 h]
      exact ha
  have := congrArg List.length (absPath_inj cs (cs ++ [a]) hc hall h)
  simp at this

theorem flatFind_mem (rcs : List Str) (files : List (Str × SrcNode)) (n : Str) (node : SrcNode)
    (hr : ∀ c ∈ rcs, simpleName c) (hnames : ∀ f ∈ files, plainName f.1)
    (hnd : (files.map Prod.fst).Nodup) (hmem : (n, node) ∈ files) :
    flatFind (absPath rcs) files (absPath (rcs ++ [n])) = some (n, node) := by
  unfold flatFind
  apply find_of_key files _ n node hnd hmem
  intro f hf
  have hfs : simpleName f.1 := (hnames f hf).1
  have hns : simpleName n := (hnames (n, node) hmem).1
  rw [Join_absPath_name rcs f.1 hr hfs]
  simp only [decide_eq_true_eq]
  constructor
  · exact absPath_snoc_inj rcs f.1 n hr hfs hns
  · intro e
    rw [e]


theorem Join_root_name (n : Str) (hn : simpleName n) : Join ['/'] n = absPath [n] := by
  have := Join_absPath_name [] n (by simp) hn
  simpa [absPath, joinSep] using this

theorem archiveWalk_flat_root (rcs : List Str) (files : List (Str × SrcNode))
    (sha : List Entry → Str) (tw : List Entry) (hr : ∀ c ∈ rcs, simpleName c) :
    archiveWalk (flatWorld (absPath rcs) files sha) (absPath rcs) ['/'] [] tw
      { path := absPath rcs, info := .ok (flatDirInfo (absPath rcs)) } = (none, tw) := by
  have habs : Abs (flatWorld (absPath rcs) files sha).getwd (absPath rcs) = .ok (absPath rcs) :=
    Abs_absPath _ rcs hr
  unfold archiveWalk
  simp only [habs, Rel_absPath_self rcs hr, checkIgnore, FileInfoHeader, flatDirInfo]
  simp

theorem archiveWalk_flat_file (rcs : List Str) (files : List (Str × SrcNode))
    (sha : List Entry → Str) (tw : List Entry) (f : Str × SrcNode)
    (hr : ∀ c ∈ rcs, simpleName c) (hnames : ∀ f ∈ files, plainName f.1)
    (hnd : (files.map Prod.fst).Nodup)
    (hlinks : ∀ n t, (n, SrcNode.link t) ∈ files → ∃ c, (t, SrcNode.regular c) ∈ files)
    (hmem : f ∈ files) :
    archiveWalk (flatWorld (absPath rcs) files sha) (absPath rcs) ['/'] [] tw
      { path := Join (absPath rcs) f.1, info := .ok (flatInfo f.1 f.2) } =
        (none, tw ++ [flatEntry f]) := by
  obtain ⟨n, node⟩ := f
  have hpn : plainName n := hnames (n, node) hmem
  have hsn : simpleName n := hpn.1
  have hall : ∀ x : Str, simpleName x → ∀ c ∈ rcs ++ [x], simpleName c := by
    intro x hx c hc
    rcases List.mem_append.1 hc with h | h
    · exact hr c h
    · rw [List.mem_singleton.1 h]
      exact hx
  have hpath : Join (absPath rcs) n = absPath (rcs ++ [n]) := Join_absPath_name rcs n hr hsn
  have habs : Abs (flatWorld (absPath rcs) files sha).getwd (absPath (rcs ++ [n])) =
      .ok (absPath (rcs ++ [n])) := Abs_absPath _ _ (hall n hsn)
  have hrel : ∀ x : Str, simpleName x → Rel (absPath rcs) (absPath (rcs ++ [x])) = .ok x := by
    intro x hx
    have := Rel_absPath_below rcs [x] hr (by simpa using hx) (by simp)
    simpa [joinSep] using this
  have hfind := flatFind_mem rcs files n node hr hnames hnd hmem
  have hne : absPath (rcs ++ [n]) ≠ absPath rcs := absPath_snoc_ne rcs n hr hsn
  have hpre : HasPrefix n ['.', '.'] = false := hpn.2
  unfold archiveWalk
  simp only [hpath, habs, hrel n hsn, checkIgnore]
  cases node with
  | regular c =>
    have hev : (flatWorld (absPath rcs) files sha).evalSymlinks (absPath (rcs ++ [n])) =
        .ok (absPath (rcs ++ [n])) := by
      simp [flatWorld, hne, hfind]
    have hrd : (flatWorld (absPath rcs) files sha).readFile (absPath (rcs ++ [n])) = .ok c := by
      simp [flatWorld, hfind]
    have hwh : ∀ h : Header, (flatWorld (absPath rcs) files sha).writeHeader tw h = none :=
      fun _ => rfl
    simp only [flatInfo, FileInfoHeader, hev, hrel n hsn, hpre, Join_root_name n hsn]
    simp [writeTarFile, hwh, hrd, flatEntry]
  | link t =>
    obtain ⟨c, hc⟩ := hlinks n t hmem
    have hpt : plainName t := hnames (t, .regular c) hc
    have hlk : files.lookup t = some (.regular c) := lookup_of_mem_nodup files t _ hnd hc
    have hev : (flatWorld (absPath rcs) files sha).evalSymlinks (absPath (rcs ++ [n])) =
        .ok (absPath (rcs ++ [t])) := by
      simp [flatWorld, hne, hfind, hlk, Join_absPath_name rcs t hr hpt.1]
    have hwh : ∀ h : Header, (flatWorld (absPath rcs) files sha).writeHeader tw h = none :=
      fun _ => rfl
    simp only [flatInfo, FileInfoHeader, hev, hrel t hpt.1, hpt.2, Join_root_name n hsn,
      Join_root_name t hpt.1]
    simp [writeTarFile, hwh, flatEntry]

theorem walkAll_flat (rcs : List Str) (files : List (Str × SrcNode))
    (sha : List Entry → Str) (hr : ∀ c ∈ rcs, simpleName c)
    (hnames : ∀ f ∈ files, plainName f.1) (hnd : (files.map Prod.fst).Nodup)
    (hlinks : ∀ n t, (n, SrcNode.link t) ∈ files → ∃ c, (t, SrcNode.regular c) ∈ files)
    (part : List (Str × SrcNode)) (hpart : ∀ f ∈ part, f ∈ files) (tw : List Entry) :
    walkAll (flatWorld (absPath rcs) files sha) (absPath rcs) ['/'] []
      (part.map fun f => { path := Join (absPath rcs) f.1, info := .ok (flatInfo f.1 f.2) }) tw =
        (none, tw ++ part.map flatEntry) := by
  induction part generalizing tw with
  | nil => simp [walkAll]
  | cons f part ih =>
    simp only [List.map_cons, walkAll]
    rw [archiveWalk_flat_file rcs files sha tw f hr hnames hnd hlinks (hpart f (by simp))]
    simp only
    rw [ih (fun g hg => hpart g (by simp [hg]))]
    simp

theorem Archive_flat (rcs : List Str) (files : List (Str × SrcNode))
    (sha : List Entry → Str) (hr : ∀ c ∈ rcs, simpleName c)
    (hnames : ∀ f ∈ files, plainName f.1) (hnd : (files.map Prod.fst).Nodup)
    (hlinks : ∀ n t, (n, SrcNode.link t) ∈ files → ∃ c, (t, SrcNode.regular c) ∈ files) :
    Archive (flatWorld (absPath rcs) files sha) ctxLive (absPath rcs) ['/'] [] =
      { file := "/tmp/box-copy.1".toList,
        digest := sha (flatRootEntry :: files.map flatEntry),
        err := none,
        written := flatRootEntry :: files.map flatEntry } := by
  have hglob : (flatWorld (absPath rcs) files sha).glob (absPath rcs) = .ok [absPath rcs] := by
    simp [flatWorld]
  have hev : (flatWorld (absPath rcs) files sha).evalSymlinks (absPath rcs) =
      .ok (absPath rcs) := by
    simp [flatWorld]
  have hls : (flatWorld (absPath rcs) files sha).lstat (absPath rcs) =
      .ok (flatDirInfo (absPath rcs)) := by
    simp [flatWorld]
  have habs : Abs (flatWorld (absPath rcs) files sha).getwd (absPath rcs) = .ok (absPath rcs) :=
    Abs_absPath _ rcs hr
  have hproc : processEntries (flatWorld (absPath rcs) files sha) [absPath rcs] =
      .ok [{ filename := absPath rcs, fi := flatDirInfo (absPath rcs) }] := by
    simp [processEntries, hev, habs, hls]
  have htmp : (flatWorld (absPath rcs) files sha).tempFile = .ok "/tmp/box-copy.1".toList := rfl
  have hwalk : (flatWorld (absPath rcs) files sha).walk (absPath rcs) =
      { path := absPath rcs, info := .ok (flatDirInfo (absPath rcs)) } ::
        files.map fun f => { path := Join (absPath rcs) f.1, info := .ok (flatInfo f.1 f.2) } := by
    simp [flatWorld]
  have hwh : ∀ (tw : List Entry) (h : Header),
      (flatWorld (absPath rcs) files sha).writeHeader tw h = none := fun _ _ => rfl
  have hloop : archiveLoop (flatWorld (absPath rcs) files sha) ctxLive []
      [{ filename := absPath rcs, fi := flatDirInfo (absPath rcs) }] 1 ['/'] [] =
        (none, flatRootEntry :: files.map flatEntry) := by
    simp only [archiveLoop, ctxLive, FileInfo.IsDir, flatDirInfo, FileInfoHeader, hwh, hwalk,
      walkAll]
    simp only [decide_True, if_true]
    have h1 := archiveWalk_flat_root rcs files sha
      ([] ++ [flatRootEntry]) hr
    simp only [flatDirInfo, flatRootEntry] at h1
    have hdot : (['/'] : Str) ≠ ['.'] := by decide
    simp only [hdot, if_false]
    rw [h1]
    simp only
    have h2 := walkAll_flat rcs files sha hr hnames hnd hlinks files (fun f hf => hf)
      ([] ++ [flatRootEntry])
    simp only [flatRootEntry] at h2
    rw [h2]
    simp [flatRootEntry]
  unfold Archive
  simp only [ctxLive, hglob, hproc, htmp]
  have hloop' := hloop
  simp only [ctxLive] at hloop'
  rw [hloop']
  rfl

/-! ## A flat directory: unpacking -/

theorem lookup_filter_ne (fs : DestFS) (p q : Str) (h : q ≠ p) :
    (fs.filter fun x => x.1 ≠ p).lookup q = fs.lookup q := by
  induction fs with
  | nil => rfl
  | cons a fs ih =>
    obtain ⟨a1, a2⟩ := a
    by_cases ha : a1 = p
    · subst ha
      have hb : (q == a1) = false := by simpa using h
      simpa [List.filter, List.lookup, hb] using ih
    · by_cases hq : q = a1
      · subst hq
        simp [List.filter, ha, List.lookup]
      · have hb : (q == a1) = false := by simpa using hq
        simpa [List.filter, ha, List.lookup, hb] using ih

theorem lookup_setNode (fs : DestFS) (p q : Str) (n : DNode) :
    (setNode fs p n).lookup q = if q = p then some n else fs.lookup q := by
  unfold setNode
  by_cases h : q = p
  · subst h
    simp [List.lookup]
  · have hb : (q == p) = false := by simpa using h
    simpa [List.lookup, hb, h] using lookup_filter_ne fs p q h

theorem splitOn_absPath (cs : List Str) :
    splitOn '/' (absPath cs) = [] :: splitOn '/' (joinSep '/' cs) := by
  simp [absPath, splitOn]

theorem implicitDir_absPath (cs : List Str) (hne : cs ≠ []) (h : ∀ c ∈ cs, simpleName c) :
    implicitDir (absPath cs) = false := by
  have hj : joinSep '/' cs ≠ [] := joinSep_ne_nil '/' cs hne (fun c hc => (h c hc).1)
  have h1 : absPath cs ≠ ['/'] := by simpa [absPath] using hj
  unfold implicitDir
  rw [splitOn_absPath]
  simp [h1]

theorem statFS_absPath (fs : DestFS) (cs : List Str) (hne : cs ≠ [])
    (h : ∀ c ∈ cs, simpleName c) : statFS fs (absPath cs) = fs.lookup (absPath cs) := by
  simp [statFS, implicitDir_absPath cs hne h]

theorem statFS_dest (fs : DestFS) (dcs : List Str) (h : ∀ c ∈ dcs, simpleName c)
    (hd : fs.lookup (absPath dcs) = some .dir) : statFS fs (absPath dcs) = some .dir := by
  by_cases hne : dcs = []
  · subst hne
    simp [statFS, implicitDir, absPath, joinSep]
  · rw [statFS_absPath fs dcs hne h, hd]

theorem joinSep_snoc (sep : Char) (cs : List Str) (n : Str) (hne : cs ≠ []) :
    joinSep sep (cs ++ [n]) = joinSep sep cs ++ sep :: n := by
  induction cs with
  | nil => exact absurd rfl hne
  | cons a cs ih =>
    cases cs with
    | nil => simp [joinSep]
    | cons b cs =>
      have := ih (by simp)
      simp only [List.cons_append] at this ⊢
      rw [joinSep_cons_cons, this, joinSep_cons_cons]
      simp

theorem dropWhile_noSlash (l q : Str) (h : '/' ∉ l) :
    (l ++ '/' :: q).dropWhile (· ≠ '/') = '/' :: q := by
  induction l with
  | nil => simp [List.dropWhile]
  | cons c l ih =>
    have hc : c ≠ '/' := fun e => h (by simp [e])
    have hl : '/' ∉ l := fun e => h (by simp [e])
    simpa [List.dropWhile, hc] using ih hl

theorem Dir_absPath_snoc (dcs : List Str) (n : Str) (h : ∀ c ∈ dcs, simpleName c)
    (hn : simpleName n) : Dir (absPath (dcs ++ [n])) = absPath dcs := by
  have hnr : '/' ∉ n.reverse := by simpa using hn.2.1
  by_cases hne : dcs = []
  · subst hne
    have h1 : (absPath ([] ++ [n])).reverse = n.reverse ++ '/' :: [] := by
      simp [absPath, joinSep]
    unfold Dir
    rw [h1, dropWhile_noSlash _ _ hnr]
    decide
  · have h1 : (absPath (dcs ++ [n])).reverse = n.reverse ++ '/' :: (absPath dcs).reverse := by
      simp [absPath, joinSep_snoc '/' dcs n hne]
    unfold Dir
    rw [h1, dropWhile_noSlash _ _ hnr]
    have h2 : ('/' :: (absPath dcs).reverse).reverse = absPath dcs ++ '/' :: [] := by simp
    rw [h2, Clean_absPath_append dcs [] h]
    simp [splitOn, cleanStep]

theorem HasPrefix_absPath (cs : List Str) : HasPrefix (absPath cs) ['.', '.'] = false := by
  simp [HasPrefix, absPath, List.isPrefixOf]


theorem snoc_simple (cs : List Str) (x : Str) (hc : ∀ c ∈ cs, simpleName c) (hx : simpleName x) :
    ∀ c ∈ cs ++ [x], simpleName c := by
  intro c hmem
  rcases List.mem_append.1 hmem with h | h
  · exact hc c h
  · rw [List.mem_singleton.1 h]
    exact hx

theorem unarchiveLoop_root (dcs : List Str) (e : Entry) (es : List Entry)
    (ending : Option Err) (fs : DestFS) (hd : ∀ c ∈ dcs, simpleName c)
    (hname : e.header.Name = ['/']) :
    unarchiveLoop chownOk (absPath dcs) (e :: es) ending fs =
      unarchiveLoop chownOk (absPath dcs) es ending fs := by
  have h1 : HasPrefix ['/'] ['/'] = true := by decide
  rw [unarchiveLoop]
  simp only [hname, h1, if_true, List.drop, Join_absPath_empty dcs hd, Clean_absPath dcs hd,
    Rel_absPath_self dcs hd, Join_absPath_dot dcs hd]

theorem unarchiveLoop_file (dcs : List Str) (t : Str) (e : Entry) (es : List Entry)
    (ending : Option Err) (fs : DestFS) (hd : ∀ c ∈ dcs, simpleName c) (ht : simpleName t)
    (hname : e.header.Name = absPath [t]) (hdir : e.header.IsDir = false) :
    unarchiveLoop chownOk (absPath dcs) (e :: es) ending fs =
      match openWrite fs (absPath (dcs ++ [t])) e.data with
      | .error err => (some err, fs)
      | .ok fs1 => unarchiveLoop chownOk (absPath dcs) es ending fs1 := by
  have h1 : HasPrefix (absPath [t]) ['/'] = true := by
    simp [HasPrefix, absPath, List.isPrefixOf]
  have h2 : (absPath [t]).drop 1 = t := by simp [absPath, joinSep]
  have hj : Join (absPath dcs) t = absPath (dcs ++ [t]) := Join_absPath_name dcs t hd ht
  have hc : Clean (absPath (dcs ++ [t])) = absPath (dcs ++ [t]) :=
    Clean_absPath _ (snoc_simple dcs t hd ht)
  have hr : Rel (absPath dcs) (absPath (dcs ++ [t])) = .ok t := by
    have := Rel_absPath_below dcs [t] hd (by simpa using ht) (by simp)
    simpa [joinSep] using this
  have hne : absPath dcs ≠ absPath (dcs ++ [t]) := fun e => absPath_snoc_ne dcs t hd ht e.symm
  rw [unarchiveLoop]
  simp only [hname, h1, if_true, h2, hj, hc, hr, hne, if_false, HasPrefix_absPath, hdir,
    Bool.false_eq_true, chownOk]


theorem regular_unique (files : List (Str × SrcNode)) (n : Str) (c c' : Bytes)
    (hnd : (files.map Prod.fst).Nodup) (h : (n, SrcNode.regular c) ∈ files)
    (h' : (n, SrcNode.regular c') ∈ files) : c = c' := by
  have h1 := lookup_of_mem_nodup files n _ hnd h
  have h2 := lookup_of_mem_nodup files n _ hnd h'
  rw [h1] at h2
  simpa using h2

theorem openWrite_destInv (dcs : List Str) (files : List (Str × SrcNode)) (fs : DestFS)
    (t : Str) (ct data : Bytes) (hd : ∀ c ∈ dcs, simpleName c)
    (hnames : ∀ f ∈ files, plainName f.1) (hnd : (files.map Prod.fst).Nodup)
    (hinv : destInv dcs files fs) (ht : (t, SrcNode.regular ct) ∈ files)
    (hdata : data = [] ∨ data = ct) :
    ∃ fs', openWrite fs (absPath (dcs ++ [t])) data = .ok fs' ∧ destInv dcs files fs' ∧
      (∀ n c, (n, SrcNode.regular c) ∈ files →
        fs.lookup (absPath (dcs ++ [n])) = some (.file c) →
        fs'.lookup (absPath (dcs ++ [n])) = some (.file c)) ∧
      (data = ct → fs'.lookup (absPath (dcs ++ [t])) = some (.file ct)) := by
  obtain ⟨hdir, honly, hfiles⟩ := hinv
  have hts : simpleName t := (hnames _ ht).1
  have hkey : ∀ n c, (n, SrcNode.regular c) ∈ files →
      absPath (dcs ++ [n]) = absPath (dcs ++ [t]) → n = t ∧ c = ct := by
    intro n c hn e
    have hns : simpleName n := (hnames _ hn).1
    have hnt : n = t := absPath_snoc_inj dcs n t hd hns hts e
    subst hnt
    exact ⟨rfl, regular_unique files n c ct hnd hn ht⟩
  have hstat : statFS fs (absPath (dcs ++ [t])) = fs.lookup (absPath (dcs ++ [t])) :=
    statFS_absPath fs _ (by simp) (snoc_simple dcs t hd hts)
  -- the value written, in each case
  have hex : ∃ v, openWrite fs (absPath (dcs ++ [t])) data =
        .ok (setNode fs (absPath (dcs ++ [t])) (.file v)) ∧ (v = [] ∨ v = ct) ∧
        (fs.lookup (absPath (dcs ++ [t])) = some (.file ct) → v = ct) ∧ (data = ct → v = ct) := by
    unfold openWrite
    rw [hstat]
    rcases hfiles t ct ht with h | h | h
    · rw [h]
      simp only [Dir_absPath_snoc dcs t hd hts, statFS_dest fs dcs hd hdir, if_true]
      exact ⟨data, rfl, hdata, fun h' => by simp at h', fun h' => h'⟩
    · rw [h]
      refine ⟨data, by simp, hdata, ?_, fun h' => h'⟩
      intro h'
      have : ([] : Bytes) = ct := by simpa using h'
      rcases hdata with hd' | hd'
      · rw [hd', this]
      · exact hd'
    · rw [h]
      rcases hdata with hd' | hd'
      · subst hd'
        exact ⟨ct, by simp, Or.inr rfl, fun _ => rfl, fun h' => h'.symm ▸ rfl⟩
      · subst hd'
        exact ⟨data, by simp, Or.inr rfl, fun _ => rfl, fun _ => rfl⟩
  obtain ⟨v, hv, hvc, hvs, hvd⟩ := hex
  refine ⟨_, hv, ⟨?_, ?_, ?_⟩, ?_, ?_⟩
  · rw [lookup_setNode, if_neg (fun e => absPath_snoc_ne dcs t hd hts e.symm)]
    exact hdir
  · intro p hp
    rw [lookup_setNode] at hp
    by_cases hpe : p = absPath (dcs ++ [t])
    · exact Or.inr ⟨t, ct, ht, hpe⟩
    · rw [if_neg hpe] at hp
      exact honly p hp
  · intro n c hn
    rw [lookup_setNode]
    by_cases hpe : absPath (dcs ++ [n]) = absPath (dcs ++ [t])
    · obtain ⟨_, hc⟩ := hkey n c hn hpe
      rw [if_pos hpe]
      rcases hvc with h | h
      · exact Or.inr (Or.inl (by rw [h]))
      · exact Or.inr (Or.inr (by rw [h, hc]))
    · rw [if_neg hpe]
      exact hfiles n c hn
  · intro n c hn hold
    rw [lookup_setNode]
    by_cases hpe : absPath (dcs ++ [n]) = absPath (dcs ++ [t])
    · obtain ⟨_, hc⟩ := hkey n c hn hpe
      rw [if_pos hpe]
      rw [hpe, hc] at hold
      rw [hvs hold, hc]
    · rw [if_neg hpe]
      exact hold
  · intro hdc
    rw [lookup_setNode, if_pos rfl, hvd hdc]

theorem unarchiveLoop_flat (dcs : List Str) (files : List (Str × SrcNode))
    (hd : ∀ c ∈ dcs, simpleName c) (hnames : ∀ f ∈ files, plainName f.1)
    (hnd : (files.map Prod.fst).Nodup)
    (hlinks : ∀ n t, (n, SrcNode.link t) ∈ files → ∃ c, (t, SrcNode.regular c) ∈ files)
    (part : List (Str × SrcNode)) (hpart : ∀ f ∈ part, f ∈ files) (fs : DestFS)
    (hinv : destInv dcs files fs) :
    ∃ fs', unarchiveLoop chownOk (absPath dcs) (part.map flatEntry) none fs = (none, fs') ∧
      destInv dcs files fs' ∧
      (∀ n c, (n, SrcNode.regular c) ∈ files →
        fs.lookup (absPath (dcs ++ [n])) = some (.file c) →
        fs'.lookup (absPath (dcs ++ [n])) = some (.file c)) ∧
      (∀ n c, (n, SrcNode.regular c) ∈ part →
        fs'.lookup (absPath (dcs ++ [n])) = some (.file c)) := by
  induction part generalizing fs with
  | nil => exact ⟨fs, rfl, hinv, fun _ _ _ h => h, fun _ _ h => by cases h⟩
  | cons f part ih =>
    obtain ⟨n, node⟩ := f
    have hmem : (n, node) ∈ files := hpart _ (by simp)
    have hpart' : ∀ g ∈ part, g ∈ files := fun g hg => hpart g (by simp [hg])
    cases node with
    | regular c =>
      obtain ⟨fs1, hw, hinv1, hst1, hnew⟩ :=
        openWrite_destInv dcs files fs n c c hd hnames hnd hinv hmem (Or.inr rfl)
      obtain ⟨fs', hl, hinv', hst', hdone⟩ := ih hpart' fs1 hinv1
      refine ⟨fs', ?_, hinv', fun m cm hm h => hst' m cm hm (hst1 m cm hm h), ?_⟩
      · rw [List.map_cons, unarchiveLoop_file dcs n (flatEntry (n, .regular c)) (part.map flatEntry)
          none fs hd (hnames _ hmem).1 rfl rfl]
        simp only [flatEntry, hw]
        exact hl
      · intro m cm hm
        rcases List.mem_cons.1 hm with h | h
        · cases h
          exact hst' n c hmem (hnew rfl)
        · exact hdone m cm h
    | link t =>
      obtain ⟨ct, hct⟩ := hlinks n t hmem
      obtain ⟨fs1, hw, hinv1, hst1, _⟩ :=
        openWrite_destInv dcs files fs t ct [] hd hnames hnd hinv hct (Or.inl rfl)
      obtain ⟨fs', hl, hinv', hst', hdone⟩ := ih hpart' fs1 hinv1
      refine ⟨fs', ?_, hinv', fun m cm hm h => hst' m cm hm (hst1 m cm hm h), ?_⟩
      · rw [List.map_cons, unarchiveLoop_file dcs t (flatEntry (n, .link t)) (part.map flatEntry)
          none fs hd (hnames _ hct).1 rfl rfl]
        simp only [flatEntry, hw]
        exact hl
      · intro m cm hm
        rcases List.mem_cons.1 hm with h | h
        · cases h
        · exact hdone m cm h

theorem destInv_fresh (dcs : List Str) (files : List (Str × SrcNode))
    (hd : ∀ c ∈ dcs, simpleName c) (hnames : ∀ f ∈ files, plainName f.1) :
    destInv dcs files (freshDest (absPath dcs)) := by
  refine ⟨by simp [freshDest, List.lookup], ?_, ?_⟩
  · intro p hp
    left
    by_contra hne
    have hb : (p == absPath dcs) = false := by simpa using hne
    simp [freshDest, List.lookup, hb] at hp
  · intro n c hn
    left
    have hne := absPath_snoc_ne dcs n hd (hnames _ hn).1
    have hb : (absPath (dcs ++ [n]) == absPath dcs) = false := by simpa using hne
    simp [freshDest, List.lookup, hb]

/-! ## Archive followed by Unarchive -/

/-- C3 (as stated, refuted): the directory `/src` with the file `test` and the
link `testsym` to it is archived and unpacked into the fresh `/out` without
error, and `/out` then holds `test` only, not `testsym`; and for the directory
with the sub-directory `sub` the unpacking fails at `sub/f`, for no entry
makes `sub`. -/
theorem C3_round_trip_differs :
    Unarchive chownOk (freshDest "/out".toList) "/out".toList
        (tarOf (Archive (flatWorld "/src".toList filesSym shaConst) ctxLive "/src".toList
          "/".toList [])) =
      (none, [("/out/test".toList, .file [7, 8]), ("/out".toList, .dir)]) ∧
    Unarchive chownOk (freshDest "/out".toList) "/out".toList
        (tarOf (Archive nestedWorld ctxLive "/src".toList "/".toList [])) =
      (some (.sys 2), [("/out/a".toList, .file [1]), ("/out".toList, .dir)]) :=
  ⟨by decide, by decide⟩

/-- C3 (amended): a directory without sub-directories at an absolute cleaned
path, whose files have distinct plain names and are regular files or links to
regular files of the same directory, is archived with target `/` without
error; unpacking the archive into a fresh absolute cleaned destination
succeeds; and the destination then holds, besides itself, exactly the regular
files of the source under their names and with their bytes. -/
theorem C3_flat_round_trip (rcs dcs : List Str) (files : List (Str × SrcNode))
    (sha : List Entry → Str)
    (hr : ∀ c ∈ rcs, simpleName c) (hd : ∀ c ∈ dcs, simpleName c)
    (hnames : ∀ f ∈ files, plainName f.1) (hnd : (files.map Prod.fst).Nodup)
    (hlinks : ∀ n t, (n, SrcNode.link t) ∈ files → ∃ c, (t, SrcNode.regular c) ∈ files) :
    (Archive (flatWorld (absPath rcs) files sha) ctxLive (absPath rcs) ['/'] []).err = none ∧
    (Unarchive chownOk (freshDest (absPath dcs)) (absPath dcs)
      (tarOf (Archive (flatWorld (absPath rcs) files sha) ctxLive (absPath rcs) ['/'] []))).1 =
        none ∧
    (∀ n c, (n, SrcNode.regular c) ∈ files →
      (Unarchive chownOk (freshDest (absPath dcs)) (absPath dcs)
        (tarOf (Archive (flatWorld (absPath rcs) files sha) ctxLive (absPath rcs) ['/']
          []))).2.lookup (Join (absPath dcs) n) = some (.file c)) ∧
    (Unarchive chownOk (freshDest (absPath dcs)) (absPath dcs)
      (tarOf (Archive (flatWorld (absPath rcs) files sha) ctxLive (absPath rcs) ['/']
        []))).2.lookup (absPath dcs) = some .dir ∧
    (∀ p, p ≠ absPath dcs →
      (∀ n c, (n, SrcNode.regular c) ∈ files → p ≠ Join (absPath dcs) n) →
      (Unarchive chownOk (freshDest (absPath dcs)) (absPath dcs)
        (tarOf (Archive (flatWorld (absPath rcs) files sha) ctxLive (absPath rcs) ['/']
          []))).2.lookup p = none) := by
  rw [Archive_flat rcs files sha hr hnames hnd hlinks]
  obtain ⟨fs', hloop, hinv, _, hdone⟩ :=
    unarchiveLoop_flat dcs files hd hnames hnd hlinks files (fun f hf => hf)
      (freshDest (absPath dcs)) (destInv_fresh dcs files hd hnames)
  have hun : Unarchive chownOk (freshDest (absPath dcs)) (absPath dcs)
      (tarOf { file := "/tmp/box-copy.1".toList,
               digest := sha (flatRootEntry :: files.map flatEntry),
               err := none,
               written := flatRootEntry :: files.map flatEntry }) = (none, fs') := by
    simp only [Unarchive, tarOf, Clean_absPath dcs hd]
    rw [unarchiveLoop_root dcs flatRootEntry _ none _ hd rfl]
    exact hloop
  rw [hun]
  obtain ⟨hdir, honly, _⟩ := hinv
  refine ⟨rfl, rfl, ?_, hdir, ?_⟩
  · intro n c hn
    rw [Join_absPath_name dcs n hd (hnames _ hn).1]
    exact hdone n c hn
  · intro p hp hno
    by_contra hne
    rcases honly p hne with h | ⟨n, c, hn, h⟩
    · exact hp h
    · exact hno n c hn (by rw [Join_absPath_name dcs n hd (hnames _ hn).1]; exact h)

/-- C3 (amended), at the directory `/src` with `test` and `testsym`, unpacked
into `/out`. -/
theorem C3_flat_round_trip_witness :
    (Archive (flatWorld (absPath ["src".toList]) filesSym shaConst) ctxLive
        (absPath ["src".toList]) ['/'] []).err = none ∧
    (Unarchive chownOk (freshDest (absPath ["out".toList])) (absPath ["out".toList])
      (tarOf (Archive (flatWorld (absPath ["src".toList]) filesSym shaConst) ctxLive
        (absPath ["src".toList]) ['/'] []))).1 = none ∧
    (Unarchive chownOk (freshDest (absPath ["out".toList])) (absPath ["out".toList])
      (tarOf (Archive (flatWorld (absPath ["src".toList]) filesSym shaConst) ctxLive
        (absPath ["src".toList]) ['/'] []))).2.lookup
          (Join (absPath ["out".toList]) "test".toList) = some (.file [7, 8]) ∧
    (Unarchive chownOk (freshDest (absPath ["out".toList])) (absPath ["out".toList])
      (tarOf (Archive (flatWorld (absPath ["src".toList]) filesSym shaConst) ctxLive
        (absPath ["src".toList]) ['/'] []))).2.lookup "/out/testsym".toList = none := by
  have hlinks : ∀ n t, (n, SrcNode.link t) ∈ filesSym →
      ∃ c, (t, SrcNode.regular c) ∈ filesSym := by
    intro n t h
    simp only [filesSym, List.mem_cons, Prod.mk.injEq, List.mem_singleton, reduceCtorEq,
      and_false, false_or, SrcNode.link.injEq, List.not_mem_nil, or_false] at h
    obtain ⟨_, rfl⟩ := h
    exact ⟨[7, 8], by simp [filesSym]⟩
  have h := C3_flat_round_trip ["src".toList] ["out".toList] filesSym shaConst
    (by decide) (by decide) (by decide) (by decide) hlinks
  refine ⟨h.1, h.2.1, h.2.2.1 "test".toList [7, 8] (by simp [filesSym]), ?_⟩
  apply h.2.2.2.2 "/out/testsym".toList (by decide)
  intro n c hm
  simp only [filesSym, List.mem_cons, Prod.mk.injEq, SrcNode.regular.injEq, List.mem_singleton,
    reduceCtorEq, and_false, or_false, List.not_mem_nil] at hm
  obtain ⟨rfl, _⟩ := hm
  decide

/-! ## The archive methods of a layer -/

/-- C11: the archive methods of a layer hand `dirname`, not `Path()`, to `Archive`
and `Unarchive`.  For the layer `foo` of the working directory `/tmp/box` in a
process whose current directory is `/home`: `Path()` is `/tmp/box/foo`, yet
`Layer.Archive` returns an archive without entries where archiving `Path()`
writes the directory and its file `a`, and `Layer.Unarchive` fails and writes
nothing where unpacking into `Path()` writes `/tmp/box/foo/a`. -/
theorem C11_layer_archive_uses_dirname :
    New (.ok "/home".toList) "foo".toList "/tmp/box".toList = .ok layerFoo ∧
    layerFoo.Path = "/tmp/box/foo".toList ∧
    (Layer.Archive worldElsewhere layerFoo).err = none ∧
    (Layer.Archive worldElsewhere layerFoo).written = [] ∧
    (Archive worldElsewhere ctxLive layerFoo.Path "/".toList []).written.map
        (fun e => e.header.Name) = ["/".toList, "/a".toList] ∧
    Layer.Unarchive chownOk destBox layerFoo (.ok tarA) = (some (.sys 2), destBox) ∧
    Unarchive chownOk destBox layerFoo.Path (.ok tarA) =
      (none, ("/tmp/box/foo/a".toList, .file [4]) :: destBox) :=
  ⟨rfl, by decide, by decide, by decide, by decide, by decide, by decide⟩

end Box
